import Mathlib

/-!
Verification of the generic doubly linked list container and its merge sort
family, as implemented in src/LinkedList.h of the linked-lists-merge-sort
repository.

Two models of the container are developed.

1. A sequence-level model (structure LinkedList): a list state is the data
   sequence read along the next pointers from the head, together with the
   cached size counter, which the C++ code maintains separately from the node
   chain.  All value-level member functions of the source are translated on
   this model; operations that can throw std::runtime_error return
   Except String, with the exact message built by the source.

2. A pointer-level model (structure HeapList): nodes live in an allocation
   list addressed by index, each node holding a next pointer, a prev pointer
   and a data item, and the list object holds the members head_, tail_ and
   size_.  The push and pop member functions are translated pointer write by
   pointer write, and the structural invariant checked by assertCorrectSize
   and assertPrevLinks is proved to hold after every sequence of public
   mutating operations.

The definition of LinkedList<T>::merge lives in LinkedListExercises.h, which
is not part of src/ (the header only declares it and states its contract);
it is modelled from the spec where marked below.
-/

set_option maxHeartbeats 1600000

/-- Decidable equality for Except values, used to evaluate concrete runs of
the fallible operations in witnesses. -/
instance {ε α : Type} [DecidableEq ε] [DecidableEq α] : DecidableEq (Except ε α)
  | .error a, .error b =>
    if h : a = b then .isTrue (by rw [h]) else .isFalse (by simp [h])
  | .error _, .ok _ => .isFalse (by simp)
  | .ok _, .error _ => .isFalse (by simp)
  | .ok a, .ok b =>
    if h : a = b then .isTrue (by rw [h]) else .isFalse (by simp [h])

/-- Sequence-level model of LinkedList<T> from src/LinkedList.h: elems is the
sequence of data items read by following next from head_ (so elems = [] models
head_ == tail_ == nullptr), and size_ is the separately cached size counter,
an int in the source. -/
structure LinkedList (α : Type) where
  elems : List α
  size_ : Int
  deriving DecidableEq

namespace LinkedList

variable {α : Type}

/-- Message text of LinkedList<T>::LIST_GENERAL_BUG_MESSAGE. -/
def LIST_GENERAL_BUG_MESSAGE : String :=
  "[Error] Probable causes: wrong head_ or tail_ pointer, or some next or prev pointer not updated, or wrong size_"

/-- Default constructor LinkedList(): head_ and tail_ null, size_ 0. -/
def emptyList : LinkedList α := ⟨[], 0⟩

/-- Member size(): returns the cached counter size_. -/
def size (l : LinkedList α) : Int := l.size_

/-- Member empty(): returns !head_. -/
def empty (l : LinkedList α) : Bool := l.elems.isEmpty

/-- Member front(): throws on an empty list, otherwise returns head_->data. -/
def front (l : LinkedList α) : Except String α :=
  match l.elems with
  | [] => .error ("front() called on empty LinkedList")
  | x :: _ => .ok x

/-- Member back(): throws on an empty list, otherwise returns tail_->data. -/
def back (l : LinkedList α) : Except String α :=
  match l.elems.getLast? with
  | none => .error ("back() called on empty LinkedList")
  | some x => .ok x

/-- Member pushFront(newData): new node becomes the head; size_ incremented. -/
def pushFront (l : LinkedList α) (newData : α) : LinkedList α :=
  ⟨newData :: l.elems, l.size_ + 1⟩

/-- Member pushBack(newData): new node becomes the tail; size_ incremented. -/
def pushBack (l : LinkedList α) (newData : α) : LinkedList α :=
  ⟨l.elems ++ [newData], l.size_ + 1⟩

/-- Member popFront(): no-op on an empty list.  When head_->next is null the
single node is removed and the decremented size_ is revalidated against 0,
throwing the general bug message otherwise.  In the remaining case the head
node is unlinked and size_ decremented. -/
def popFront (l : LinkedList α) : Except String (LinkedList α) :=
  match l.elems with
  | [] => .ok l
  | [_] =>
    if l.size_ - 1 ≠ 0 then .error ("Error in popFront: " ++ LIST_GENERAL_BUG_MESSAGE)
    else .ok ⟨[], l.size_ - 1⟩
  | _ :: rest => .ok ⟨rest, l.size_ - 1⟩

/-- Member popBack(): mirror image of popFront on the tail side. -/
def popBack (l : LinkedList α) : Except String (LinkedList α) :=
  match l.elems with
  | [] => .ok l
  | [_] =>
    if l.size_ - 1 ≠ 0 then .error ("Error in popBack: " ++ LIST_GENERAL_BUG_MESSAGE)
    else .ok ⟨[], l.size_ - 1⟩
  | _ :: _ :: _ => .ok ⟨l.elems.dropLast, l.size_ - 1⟩

/-- Loop of member clear(): while (head_) popBack(). -/
def clearLoop (l : LinkedList α) : Except String (LinkedList α) :=
  match hE : l.elems with
  | [] => .ok l
  | _ :: _ =>
    match hp : popBack l with
    | .error e => .error e
    | .ok l2 => clearLoop l2
termination_by l.elems.length
decreasing_by
  unfold popBack at hp
  rw [hE] at hp
  rename_i x rest
  rcases rest with _ | ⟨y, rest2⟩
  · by_cases hs : l.size_ - 1 ≠ 0
    · rw [if_pos hs] at hp; cases hp
    · rw [if_neg hs] at hp; cases hp; simp [hE]
  · simp only at hp
    cases hp
    simp [hE]

/-- Member clear(): pop from the back until empty, then revalidate size_ == 0,
throwing the general bug message otherwise. -/
def clear (l : LinkedList α) : Except String (LinkedList α) := do
  let l2 ← clearLoop l
  if l2.size_ ≠ 0 then .error ("Error in clear: " ++ LIST_GENERAL_BUG_MESSAGE)
  else .ok l2

/-- Loop of member equals(other): while (thisCur) { if (!otherCur) throw;
if (thisCur->data != otherCur->data) return false; advance both }.  Note the
loop exits returning true as soon as the chain of this list ends, even if the
other chain still has nodes. -/
def eqLoop [DecidableEq α] : List α → List α → Except String Bool
  | [], _ => .ok true
  | _ :: _, [] =>
    .error ("Error in equals: " ++ "otherCur missing a node or wrong item count")
  | x :: xs, y :: ys => if x ≠ y then .ok false else eqLoop xs ys

/-- Member equals(other): false immediately when the cached sizes differ,
otherwise walk both chains in lockstep. -/
def equals [DecidableEq α] (l other : LinkedList α) : Except String Bool :=
  if l.size_ ≠ other.size_ then .ok false
  else eqLoop l.elems other.elems

/-- Loop of member isSorted(): walk adjacent pairs (prev, cur) and fail on the
first pair with !(prev->data <= cur->data). -/
def chainLe [LinearOrder α] : α → List α → Bool
  | _, [] => true
  | prev, cur :: rest => if ¬ (prev ≤ cur) then false else chainLe cur rest

/-- Member isSorted(): lists with size_ < 2 report sorted without touching the
chain; otherwise a null head is the general bug and the adjacent-pair scan
decides the answer. -/
def isSorted [LinearOrder α] (l : LinkedList α) : Except String Bool :=
  if l.size_ < 2 then .ok true
  else
    match l.elems with
    | [] => .error ("Error in isSorted: " ++ LIST_GENERAL_BUG_MESSAGE)
    | x :: rest => .ok (chainLe x rest)

/-- Loop of the copy assignment operator: walk the source data pushing copies
onto the destination with pushBack. -/
def assignLoop (dst : LinkedList α) : List α → LinkedList α
  | [] => dst
  | x :: rest => assignLoop (dst.pushBack x) rest

/-- Copy constructor: default-construct, then copy assignment from other.
clear() on the fresh empty list trivially succeeds, leaving the pushBack loop
over the data of other. -/
def listCopy (other : LinkedList α) : LinkedList α := assignLoop emptyList other.elems

/-- Copy assignment operator in the self-assignment case l = l: the operator
first runs clear() on the object, then walks other.head_, which is the head of
the same object and so is read after the clear. -/
def copyAssignSelf (l : LinkedList α) : Except String (LinkedList α) := do
  let d ← clear l
  .ok (assignLoop d d.elems)

/-- Loop of member splitHalves(): exactly rightHalfLength times, copy the back
of the left working list, push it onto the front of the right list, and pop it
from the left working list. -/
def splitLoop (left right : LinkedList α) : Nat → Except String (LinkedList α × LinkedList α)
  | 0 => .ok (left, right)
  | k + 1 => do
    let dataToCopy ← left.back
    let right2 := right.pushFront dataToCopy
    let left2 ← left.popBack
    splitLoop left2 right2 k

/-- Member splitHalves(): copy of this as the left working list, empty right
list; for size_ < 2 return the pair as is, otherwise move size_ / 2 elements
(int division) from the back of the left to the front of the right. -/
def splitHalves (l : LinkedList α) : Except String (LinkedList (LinkedList α)) :=
  let leftHalf := listCopy l
  let rightHalf : LinkedList α := emptyList
  if l.size_ < 2 then
    .ok ((emptyList.pushBack leftHalf).pushBack rightHalf)
  else do
    let (leftF, rightF) ← splitLoop leftHalf rightHalf (l.size_ / 2).toNat
    .ok ((emptyList.pushBack leftF).pushBack rightF)

/-- Loop of member explode(): while the working copy is not empty, push a
singleton list holding its front onto the result and pop the front. -/
def explodeLoop (workingCopy : LinkedList α) (lists : LinkedList (LinkedList α)) :
    Except String (LinkedList (LinkedList α)) :=
  match hE : workingCopy.elems with
  | [] => .ok lists
  | _ :: _ =>
    match hf : workingCopy.front, hp : workingCopy.popFront with
    | .error e, _ => .error e
    | .ok _, .error e => .error e
    | .ok x, .ok working2 =>
      explodeLoop working2 (lists.pushBack (emptyList.pushBack x))
termination_by workingCopy.elems.length
decreasing_by
  unfold popFront at hp
  rw [hE] at hp
  rename_i z rest
  rcases rest with _ | ⟨y, rest2⟩
  · by_cases hs : workingCopy.size_ - 1 ≠ 0
    · rw [if_pos hs] at hp; cases hp
    · rw [if_neg hs] at hp; cases hp; simp [hE]
  · simp only at hp
    cases hp
    simp [hE]

/-- Member explode(): one singleton list per element of a working copy of
this, in original order. -/
def explode (l : LinkedList α) : Except String (LinkedList (LinkedList α)) :=
  explodeLoop (listCopy l) emptyList

/-- Modelled from the spec: the body of LinkedList<T>::merge is defined in
LinkedListExercises.h, which is missing from src/ (src/LinkedList.h line 153
only declares it).  Following section 4.8 of the spec, this is the linear
merge of two sorted sequences, taking from the first sequence when the two
front values compare equal (the required tie-break policy).  The comparison
le is a parameter the way the C++ template is parametric in operator<= of T. -/
def mergeElems (le : α → α → Bool) : List α → List α → List α
  | [], ys => ys
  | x :: xs, [] => x :: xs
  | x :: xs, y :: ys =>
    if le x y then x :: mergeElems le xs (y :: ys)
    else y :: mergeElems le (x :: xs) ys
termination_by xs ys => xs.length + ys.length

/-- Modelled from the spec: member merge(other) produces a new list holding
the linear merge of the two chains; as a freshly built list its cached size
is the length of its chain. -/
def merge [LinearOrder α] (l other : LinkedList α) : LinkedList α :=
  let es := mergeElems (fun a b => decide (a ≤ b)) l.elems other.elems
  ⟨es, (es.length : Int)⟩

/-- Member mergeSortRecursive(), with explicit recursion fuel so that the
translation is total on all states, including corrupted ones where size_
disagrees with the chain; the termination theorem for claim C9 shows that
fuel elems.length + 1 is never exhausted on well-formed lists.  Body: size_
< 2 returns a copy of this, otherwise split into halves, sort each half
recursively, and merge the sorted halves. -/
def mergeSortRecursiveFuel [LinearOrder α] : Nat → LinkedList α → Except String (LinkedList α)
  | 0, _ => .error ("recursion fuel exhausted")
  | fuel + 1, l =>
    if l.size_ < 2 then .ok (listCopy l)
    else do
      let halves ← splitHalves l
      let left ← halves.front
      let right ← halves.back
      let leftS ← mergeSortRecursiveFuel fuel left
      let rightS ← mergeSortRecursiveFuel fuel right
      .ok (leftS.merge rightS)

/-- Member mergeSortRecursive() at its standard fuel. -/
def mergeSortRecursive [LinearOrder α] (l : LinkedList α) : Except String (LinkedList α) :=
  mergeSortRecursiveFuel (l.elems.length + 1) l

/-- Loop of member mergeSortIterative(): while (workQueue.size() > 1) dequeue
two lists from the front, merge them, and enqueue the result at the back. -/
def mergeLoop [LinearOrder α] (workQueue : LinkedList (LinkedList α)) :
    Except String (LinkedList (LinkedList α)) :=
  if h : workQueue.size_ ≤ 1 then .ok workQueue
  else
    match hf1 : workQueue.front, hp1 : workQueue.popFront with
    | .error e, _ => .error e
    | .ok _, .error e => .error e
    | .ok left, .ok q1 =>
      match hf2 : q1.front, hp2 : q1.popFront with
      | .error e, _ => .error e
      | .ok _, .error e => .error e
      | .ok right, .ok q2 =>
        mergeLoop (q2.pushBack (left.merge right))
termination_by workQueue.elems.length
decreasing_by
  rcases hl : workQueue.elems with _ | ⟨z, rest⟩
  · unfold front at hf1; rw [hl] at hf1; cases hf1
  · unfold popFront at hp1
    rw [hl] at hp1
    rcases rest with _ | ⟨w, rest2⟩
    · by_cases hs : workQueue.size_ - 1 ≠ 0
      · rw [if_pos hs] at hp1; cases hp1
      · rw [if_neg hs] at hp1
        cases hp1
        unfold front at hf2
        simp only at hf2
        cases hf2
    · simp only at hp1
      cases hp1
      unfold popFront at hp2
      simp only at hp2
      rcases rest2 with _ | ⟨u, rest3⟩
      · by_cases hs : workQueue.size_ - 1 - 1 ≠ 0
        · rw [if_pos hs] at hp2; cases hp2
        · rw [if_neg hs] at hp2
          cases hp2
          simp only [pushBack, List.length_append, List.length_cons, List.length_nil, hl]
          omega
      · cases hp2
        simp only [pushBack, List.length_append, List.length_cons, List.length_nil, hl]
        omega

/-- Member mergeSortIterative(): size_ < 2 returns a copy of this, otherwise
explode into a queue of singleton lists, run the pairwise merge loop, and
return the front of the remaining queue. -/
def mergeSortIterative [LinearOrder α] (l : LinkedList α) : Except String (LinkedList α) :=
  if l.size_ < 2 then .ok (listCopy l)
  else do
    let workQueue ← explode l
    let finalQ ← mergeLoop workQueue
    finalQ.front

/-- Member mergeSort(): the wrapper calls mergeSortRecursive (the call to
mergeSortIterative is commented out in the source). -/
def mergeSort [LinearOrder α] (l : LinkedList α) : Except String (LinkedList α) :=
  mergeSortRecursive l

/-- A sequence-level state is well formed when the cached counter size_ agrees
with the length of the chain; every list actually built by the public
interface satisfies this (the pointer-level development proves the
corresponding fact for the heap model). -/
def wf (l : LinkedList α) : Prop := l.size_ = (l.elems.length : Int)

instance (l : LinkedList α) : Decidable (wf l) := by
  unfold wf; infer_instance

end LinkedList

/-- Pointer-level model of LinkedList<T>::Node: a node holds the next pointer
(null or the address of the following node), the prev pointer, and a data
item.  Addresses are indices into an allocation list. -/
structure Node (α : Type) where
  next : Option Nat
  prev : Option Nat
  data : α

/-- Pointer-level model of the LinkedList<T> object: mem is the allocation
heap (index = address, a none entry is a deallocated node), together with the
data members head_, tail_ and the cached counter size_ (an int). -/
structure HeapList (α : Type) where
  mem : List (Option (Node α))
  head_ : Option Nat
  tail_ : Option Nat
  size_ : Int

namespace HeapList

variable {α : Type}

/-- Default constructor: no nodes, null head and tail, size 0. -/
def hEmpty : HeapList α := ⟨[], none, none, 0⟩

/-- Dereference the node at address a; none models a dereference of a freed
or out-of-range address (undefined behavior in the C++ source). -/
def readNode (mem : List (Option (Node α))) (a : Nat) : Option (Node α) :=
  match mem[a]? with
  | some (some n) => some n
  | _ => none

/-- Member pushFront(newData): allocate the node, then either install it as
the only node, or link it before the old head (oldHead->prev = newNode;
newNode->next = oldHead; head_ = newNode); size_ incremented.  A none result
models the undefined dereference of a corrupt head_ pointer. -/
def pushFront (l : HeapList α) (newData : α) : Option (HeapList α) :=
  let newAddr := l.mem.length
  let mem1 := l.mem ++ [some ⟨none, none, newData⟩]
  match l.head_ with
  | none =>
    some { mem := mem1, head_ := some newAddr, tail_ := some newAddr, size_ := l.size_ + 1 }
  | some oldHead =>
    match readNode l.mem oldHead with
    | none => none
    | some hn =>
      let mem2 := mem1.set oldHead (some { hn with prev := some newAddr })
      let mem3 := mem2.set newAddr (some ⟨some oldHead, none, newData⟩)
      some { mem := mem3, head_ := some newAddr, tail_ := l.tail_, size_ := l.size_ + 1 }

/-- Member pushBack(newData): mirror image of pushFront on the tail side
(oldTail->next = newNode; newNode->prev = oldTail; tail_ = newNode). -/
def pushBack (l : HeapList α) (newData : α) : Option (HeapList α) :=
  let newAddr := l.mem.length
  let mem1 := l.mem ++ [some ⟨none, none, newData⟩]
  match l.head_ with
  | none =>
    some { mem := mem1, head_ := some newAddr, tail_ := some newAddr, size_ := l.size_ + 1 }
  | some _ =>
    match l.tail_ with
    | none => none
    | some oldTail =>
      match readNode l.mem oldTail with
      | none => none
      | some tn =>
        let mem2 := mem1.set oldTail (some { tn with next := some newAddr })
        let mem3 := mem2.set newAddr (some ⟨none, some oldTail, newData⟩)
        some { mem := mem3, head_ := l.head_, tail_ := some newAddr, size_ := l.size_ + 1 }

/-- Member popFront(): no-op when head_ is null; when head_->next is null the
only node is deleted, both pointers reset, and the decremented size_ is
revalidated against 0 (a failed check throws, modelled as none together with
the undefined dereferences); otherwise the head moves to the next node, whose
prev is nulled, and the old head is deallocated. -/
def popFront (l : HeapList α) : Option (HeapList α) :=
  match l.head_ with
  | none => some l
  | some h =>
    match readNode l.mem h with
    | none => none
    | some hn =>
      match hn.next with
      | none =>
        let mem2 := l.mem.set h none
        if l.size_ - 1 ≠ 0 then none
        else some { mem := mem2, head_ := none, tail_ := none, size_ := l.size_ - 1 }
      | some nh =>
        match readNode l.mem nh with
        | none => none
        | some nhn =>
          let mem1 := l.mem.set nh (some { nhn with prev := none })
          let mem2 := mem1.set h none
          some { mem := mem2, head_ := some nh, tail_ := l.tail_, size_ := l.size_ - 1 }

/-- Member popBack(): mirror image of popFront on the tail side; note the
source checks head_ for the empty no-op case and then dereferences tail_. -/
def popBack (l : HeapList α) : Option (HeapList α) :=
  match l.head_ with
  | none => some l
  | some _ =>
    match l.tail_ with
    | none => none
    | some t =>
      match readNode l.mem t with
      | none => none
      | some tn =>
        match tn.prev with
        | none =>
          let mem2 := l.mem.set t none
          if l.size_ - 1 ≠ 0 then none
          else some { mem := mem2, head_ := none, tail_ := none, size_ := l.size_ - 1 }
        | some pt =>
          match readNode l.mem pt with
          | none => none
          | some ptn =>
            let mem1 := l.mem.set pt (some { ptn with next := none })
            let mem2 := mem1.set t none
            some { mem := mem2, head_ := l.head_, tail_ := some pt, size_ := l.size_ - 1 }

/-- Loop of member clear(): while (head_) popBack().  The fuel bounds the
number of iterations; from any state satisfying the structural invariant the
loop pops exactly size_ nodes, so the fuel chosen in clearH is never
exhausted there, and exhaustion (modelled as none) only arises on corrupted
states on which the C++ loop would misbehave. -/
def clearLoopH : Nat → HeapList α → Option (HeapList α)
  | 0, l =>
    match l.head_ with
    | none => some l
    | some _ => none
  | fuel + 1, l =>
    match l.head_ with
    | none => some l
    | some _ =>
      match popBack l with
      | none => none
      | some l2 => clearLoopH fuel l2

/-- Member clear(): run the pop loop, then revalidate size_ == 0 (a failure
throws the general bug message, modelled as none). -/
def clearH (l : HeapList α) : Option (HeapList α) :=
  match clearLoopH (l.size_.toNat + 1) l with
  | none => none
  | some l2 => if l2.size_ ≠ 0 then none else some l2

/-- Modelled from the spec: the body of LinkedList<T>::insertOrdered is
defined in LinkedListExercises.h, which is not part of src/ (src/LinkedList.h
line 137 only declares it).  Following spec section 4.3, the walk stands
between the node at prevA and the node at curA; it skips the leading nodes
whose data compares le to the new value (le stands for the comparison the
body applies to T values, <= by the stability requirement of spec sections
4.3 and 4.5, the way mergeElems is parametric in the comparison) and splices
a freshly allocated node in front of the first remaining node, or after the
last node when every node was skipped — the first position at which a sorted
list stays non-decreasing.  Both end insertions relink head_ or tail_ the
way the push members do.  A none result models the undefined dereference of
a corrupt pointer; fuel exhaustion, never reached from invariant states
(the chain has exactly size_ nodes there), is also modelled as none. -/
def insertOrdLoop (le : α → α → Bool) (v : α) :
    Nat → HeapList α → Option Nat → Option Nat → Option (HeapList α)
  | 0, _, _, _ => none
  | fuel + 1, l, prevA, curA =>
    match curA with
    | none =>
      let newAddr := l.mem.length
      let mem1 := l.mem ++ [some (⟨none, prevA, v⟩ : Node α)]
      match prevA with
      | none =>
        some { mem := mem1, head_ := some newAddr, tail_ := some newAddr,
               size_ := l.size_ + 1 }
      | some p =>
        match readNode l.mem p with
        | none => none
        | some np =>
          let mem2 := mem1.set p (some { np with next := some newAddr })
          some { mem := mem2, head_ := l.head_, tail_ := some newAddr,
                 size_ := l.size_ + 1 }
    | some c =>
      match readNode l.mem c with
      | none => none
      | some nc =>
        if le nc.data v then
          insertOrdLoop le v fuel l (some c) nc.next
        else
          let newAddr := l.mem.length
          let mem1 := l.mem ++ [some (⟨some c, prevA, v⟩ : Node α)]
          let mem2 := mem1.set c (some { nc with prev := some newAddr })
          match prevA with
          | none =>
            some { mem := mem2, head_ := some newAddr, tail_ := l.tail_,
                   size_ := l.size_ + 1 }
          | some p =>
            match readNode l.mem p with
            | none => none
            | some np =>
              let mem3 := mem2.set p (some { np with next := some newAddr })
              some { mem := mem3, head_ := l.head_, tail_ := l.tail_,
                     size_ := l.size_ + 1 }

/-- Modelled from the spec: member insertOrdered(newData) starts the ordered
walk at the head with no predecessor; see insertOrdLoop. -/
def insertOrdered (le : α → α → Bool) (l : HeapList α) (v : α) : Option (HeapList α) :=
  insertOrdLoop le v (l.size_.toNat + 1) l none l.head_

end HeapList

/-- One public mutating operation on the pointer-level list.  The insertOrd
case carries the element comparison the way the C++ template carries the
operator<= of T. -/
inductive ListOp (α : Type) where
  | pushF (v : α)
  | pushB (v : α)
  | popF
  | popB
  | clearOp
  | insertOrd (le : α → α → Bool) (v : α)

/-- Apply one public mutating operation to a pointer-level state. -/
def applyOp {α : Type} (l : HeapList α) : ListOp α → Option (HeapList α)
  | .pushF v => l.pushFront v
  | .pushB v => l.pushBack v
  | .popF => l.popFront
  | .popB => l.popBack
  | .clearOp => l.clearH
  | .insertOrd le v => HeapList.insertOrdered le l v

/-- Run a sequence of public mutating operations from a default-constructed
list. -/
def runOps {α : Type} (ops : List (ListOp α)) : Option (HeapList α) :=
  ops.foldlM applyOp HeapList.hEmpty

/-- Forward chain segment: repsSeg mem p c addrs q d holds when, standing at
pointer c whose node is expected to carry prev == p, following next pointers
visits exactly the addresses addrs (each a live cell of mem, each node
carrying the correct back-reference), after which the traversal stands at
pointer d, the last visited address being recorded in q (q = p when addrs is
empty). -/
def repsSeg (mem : List (Option (Node α))) :
    Option Nat → Option Nat → List Nat → Option Nat → Option Nat → Prop
  | p, c, [], q, d => q = p ∧ d = c
  | p, c, a :: rest, q, d =>
    c = some a ∧ ∃ n : Node α, mem[a]? = some (some n) ∧ n.prev = p ∧
      repsSeg mem (some a) n.next rest q d

/-- Backward chain segment: follows prev pointers, checking each node carries
the correct next pointer; the mirror image of repsSeg. -/
def bwdSeg (mem : List (Option (Node α))) :
    Option Nat → Option Nat → List Nat → Option Nat → Option Nat → Prop
  | nx, c, [], q, d => q = nx ∧ d = c
  | nx, c, a :: rest, q, d =>
    c = some a ∧ ∃ n : Node α, mem[a]? = some (some n) ∧ n.next = nx ∧
      bwdSeg mem (some a) n.prev rest q d

/-- Structural invariant of the pointer-level list, the property validated by
assertCorrectSize and assertPrevLinks in the source: some address sequence
addrs forms the forward chain from head_ with consistent back-references,
the traversal ends at the null pointer having last visited tail_, and the
cached size_ equals the number of nodes in the chain. -/
def HeapList.inv {α : Type} (l : HeapList α) : Prop :=
  ∃ addrs : List Nat,
    repsSeg l.mem none l.head_ addrs l.tail_ none ∧ l.size_ = (addrs.length : Int)

/-- Reduction of an Except bind on a success value. -/
theorem bindOk {ε α β : Type} (a : α) (f : α → Except ε β) :
    (Except.ok a : Except ε α) >>= f = f a := rfl

/-- Reduction of an Except bind on an error value. -/
theorem bindErr {ε α β : Type} (e : ε) (f : α → Except ε β) :
    (Except.error e : Except ε α) >>= f = .error e := rfl

namespace LinkedList

variable {α : Type}

theorem assignLoop_spec (xs : List α) : ∀ dst : LinkedList α,
    assignLoop dst xs = ⟨dst.elems ++ xs, dst.size_ + (xs.length : Int)⟩ := by
  induction xs with
  | nil => intro dst; simp [assignLoop]
  | cons x rest ih =>
    intro dst
    rw [assignLoop, ih]
    simp only [pushBack, mk.injEq]
    constructor
    · simp
    · simp only [List.length_cons]
      push_cast
      ring

theorem listCopy_spec (l : LinkedList α) :
    listCopy l = ⟨l.elems, (l.elems.length : Int)⟩ := by
  rw [listCopy, assignLoop_spec]
  simp [emptyList]

theorem listCopy_wf (l : LinkedList α) : wf (listCopy l) := by
  rw [listCopy_spec, wf]

theorem front_spec (l : LinkedList α) (x : α) (rest : List α) (h : l.elems = x :: rest) :
    front l = .ok x := by
  rw [front, h]

theorem back_spec (l : LinkedList α) (x : α) (h : l.elems.getLast? = some x) :
    back l = .ok x := by
  rw [back, h]

theorem popFront_spec (l : LinkedList α) (x : α) (rest : List α)
    (hE : l.elems = x :: rest) (hw : wf l) :
    popFront l = .ok ⟨rest, l.size_ - 1⟩ := by
  rw [popFront, hE]
  rcases rest with _ | ⟨y, rest2⟩
  · have hz : l.size_ = 1 := by
      rw [wf, hE] at hw
      simpa using hw
    rw [if_neg (by omega)]
  · rfl

theorem popBack_spec (l : LinkedList α) (hE : l.elems ≠ []) (hw : wf l) :
    popBack l = .ok ⟨l.elems.dropLast, l.size_ - 1⟩ := by
  rw [popBack]
  rcases hl : l.elems with _ | ⟨x, rest⟩
  · exact absurd hl hE
  · rcases rest with _ | ⟨y, rest2⟩
    · have hz : l.size_ - 1 = 0 := by rw [wf, hl] at hw; simp at hw; omega
      rw [if_neg (by omega)]
      simp [hl]
    · simp [hl]

theorem pop_wf (l : LinkedList α) (hw : wf l) (es : List α) (hlen : es.length + 1 = l.elems.length) :
    wf (⟨es, l.size_ - 1⟩ : LinkedList α) := by
  rw [wf] at hw
  show l.size_ - 1 = (es.length : Int)
  omega

theorem splitLoop_spec : ∀ (k : Nat) (left right : LinkedList α) (init tl : List α),
    wf left → left.elems = init ++ tl → tl.length = k →
    splitLoop left right k =
      .ok (⟨init, (init.length : Int)⟩, ⟨tl ++ right.elems, right.size_ + (k : Int)⟩) := by
  intro k
  induction k with
  | zero =>
    intro left right init tl hw hE hlen
    rw [List.length_eq_zero] at hlen
    subst hlen
    rw [List.append_nil] at hE
    rw [splitLoop]
    obtain ⟨le, ls⟩ := left
    obtain ⟨re, rs⟩ := right
    rw [wf] at hw
    simp only at hE hw
    subst hE
    rw [hw]
    simp
  | succ k ih =>
    intro left right init tl hw hE hlen
    rcases tl.eq_nil_or_concat with hnil | ⟨tl2, b, htl⟩
    · subst hnil; simp at hlen
    · rw [List.concat_eq_append] at htl
      subst htl
      have hne : left.elems ≠ [] := by
        rw [hE]; simp
      have hback : back left = .ok b := by
        apply back_spec
        rw [hE, ← List.append_assoc, List.getLast?_concat]
      have hpop : popBack left = .ok ⟨left.elems.dropLast, left.size_ - 1⟩ :=
        popBack_spec left hne hw
      rw [splitLoop]
      rw [hback, hpop, bindOk, bindOk]
      have hdrop : left.elems.dropLast = init ++ tl2 := by
        rw [hE, ← List.append_assoc, List.dropLast_concat]
      have hw2 : wf (⟨left.elems.dropLast, left.size_ - 1⟩ : LinkedList α) := by
        apply pop_wf left hw
        rw [hdrop, hE]
        simp
        omega
      have hlen2 : tl2.length = k := by
        rw [List.length_append] at hlen; simp at hlen; omega
      have hrec := ih ⟨left.elems.dropLast, left.size_ - 1⟩ (right.pushFront b) init tl2 hw2 (by simpa using hdrop) hlen2
      rw [hrec]
      simp only [pushFront, mk.injEq, Prod.mk.injEq, Except.ok.injEq, true_and]
      constructor
      · simp [List.append_assoc]
      · push_cast
        ring

theorem splitHalves_spec (l : LinkedList α) (hw : wf l) :
    splitHalves l =
      .ok ⟨[⟨l.elems.take (l.elems.length - l.elems.length / 2),
             ((l.elems.length - l.elems.length / 2 : Nat) : Int)⟩,
            ⟨l.elems.drop (l.elems.length - l.elems.length / 2),
             ((l.elems.length / 2 : Nat) : Int)⟩], 2⟩ := by
  rw [wf] at hw
  rw [splitHalves]
  by_cases h2 : l.size_ < 2
  · rw [if_pos h2]
    have hn2 : l.elems.length < 2 := by omega
    have hdiv : l.elems.length / 2 = 0 := by omega
    rw [listCopy_spec]
    simp only [pushBack, emptyList, hdiv, Nat.sub_zero, List.take_length, List.drop_length,
      Except.ok.injEq, mk.injEq, List.nil_append, Nat.cast_zero]
    simp
  · rw [if_neg h2]
    have hn2 : 2 ≤ l.elems.length := by omega
    have hk : (l.size_ / 2).toNat = l.elems.length / 2 := by omega
    rw [hk]
    have hsplit := splitLoop_spec (l.elems.length / 2) (listCopy l) emptyList
      (l.elems.take (l.elems.length - l.elems.length / 2))
      (l.elems.drop (l.elems.length - l.elems.length / 2))
      (listCopy_wf l)
      (by rw [listCopy_spec]; exact (List.take_append_drop _ _).symm)
      (by rw [List.length_drop]; omega)
    rw [hsplit, bindOk]
    have hlt : (l.elems.take (l.elems.length - l.elems.length / 2)).length
        = l.elems.length - l.elems.length / 2 := by
      rw [List.length_take]; omega
    simp only [emptyList, pushBack, List.nil_append, List.append_nil, zero_add, hlt]
    norm_num

theorem chainLe_of_sorted [LinearOrder α] : ∀ (x : α) (rest : List α),
    (x :: rest).Sorted (· ≤ ·) → chainLe x rest = true := by
  intro x rest
  induction rest generalizing x with
  | nil => intro _; rfl
  | cons y rest ih =>
    intro h
    rw [List.sorted_cons] at h
    rw [chainLe]
    have hxy : x ≤ y := h.1 y (by simp)
    rw [if_neg (not_not_intro hxy)]
    exact ih y h.2

theorem isSorted_spec [LinearOrder α] (l : LinkedList α) (hw : wf l)
    (hs : l.elems.Sorted (· ≤ ·)) : isSorted l = .ok true := by
  rw [isSorted]
  by_cases h2 : l.size_ < 2
  · rw [if_pos h2]
  · rw [if_neg h2]
    have hlen : 2 ≤ l.elems.length := by rw [wf] at hw; omega
    rcases hl : l.elems with _ | ⟨x, rest⟩
    · rw [hl] at hlen; simp at hlen
    · rw [hl] at hs
      simp only [hl]
      rw [chainLe_of_sorted x rest hs]

theorem mergeElems_perm (le : α → α → Bool) :
    ∀ xs ys : List α, (mergeElems le xs ys).Perm (xs ++ ys) := by
  intro xs ys
  induction xs, ys using mergeElems.induct le with
  | case1 ys => simp [mergeElems]
  | case2 x xs => simp [mergeElems]
  | case3 x xs y ys h ih =>
    rw [mergeElems, if_pos h]
    exact ih.cons x
  | case4 x xs y ys h ih =>
    rw [mergeElems, if_neg h]
    exact (ih.cons y).trans List.perm_middle.symm

theorem mergeElems_sorted_of [LinearOrder α] (le : α → α → Bool)
    (hle : ∀ a b : α, le a b = true ↔ a ≤ b) :
    ∀ xs ys : List α, xs.Sorted (· ≤ ·) → ys.Sorted (· ≤ ·) →
      (mergeElems le xs ys).Sorted (· ≤ ·) := by
  intro xs ys
  induction xs, ys using mergeElems.induct le with
  | case1 ys => intro _ hy; simpa [mergeElems] using hy
  | case2 x xs => intro hx _; simpa [mergeElems] using hx
  | case3 x xs y ys h ih =>
    intro hx hy
    have hxy : x ≤ y := (hle x y).mp h
    rw [mergeElems, if_pos h, List.sorted_cons]
    refine ⟨?_, ih (List.sorted_cons.mp hx).2 hy⟩
    intro b hb
    have hmem := (mergeElems_perm _ xs (y :: ys)).mem_iff.mp hb
    rw [List.mem_append] at hmem
    rcases hmem with hbx | hby
    · exact (List.sorted_cons.mp hx).1 b hbx
    · rcases List.mem_cons.mp hby with rfl | hbys
      · exact hxy
      · exact le_trans hxy ((List.sorted_cons.mp hy).1 b hbys)
  | case4 x xs y ys h ih =>
    intro hx hy
    have hyx : y < x := lt_of_not_le (fun hc => h ((hle x y).mpr hc))
    rw [mergeElems, if_neg h, List.sorted_cons]
    refine ⟨?_, ih hx (List.sorted_cons.mp hy).2⟩
    intro b hb
    have hmem := (mergeElems_perm _ (x :: xs) ys).mem_iff.mp hb
    rw [List.mem_append] at hmem
    rcases hmem with hbx | hby
    · rcases List.mem_cons.mp hbx with rfl | hbxs
      · exact le_of_lt hyx
      · exact le_trans (le_of_lt hyx) ((List.sorted_cons.mp hx).1 b hbxs)
    · exact (List.sorted_cons.mp hy).1 b hby

theorem mergeElems_sorted [LinearOrder α] :
    ∀ xs ys : List α, xs.Sorted (· ≤ ·) → ys.Sorted (· ≤ ·) →
      (mergeElems (fun a b => decide (a ≤ b)) xs ys).Sorted (· ≤ ·) :=
  mergeElems_sorted_of (fun a b => decide (a ≤ b)) (by intro a b; simp)

theorem merge_elems [LinearOrder α] (l other : LinkedList α) :
    (l.merge other).elems = mergeElems (fun a b => decide (a ≤ b)) l.elems other.elems := rfl

theorem merge_wf [LinearOrder α] (l other : LinkedList α) : wf (l.merge other) := rfl

theorem merge_perm [LinearOrder α] (l other : LinkedList α) :
    (l.merge other).elems.Perm (l.elems ++ other.elems) :=
  mergeElems_perm _ l.elems other.elems

theorem merge_sorted [LinearOrder α] (l other : LinkedList α)
    (hl : l.elems.Sorted (· ≤ ·)) (ho : other.elems.Sorted (· ≤ ·)) :
    (l.merge other).elems.Sorted (· ≤ ·) :=
  mergeElems_sorted l.elems other.elems hl ho

theorem sorted_of_short (l : LinkedList α) [LinearOrder α] (h : l.elems.length < 2) :
    l.elems.Sorted (· ≤ ·) := by
  rcases hl : l.elems with _ | ⟨x, rest⟩
  · simp
  · rcases rest with _ | ⟨y, rest2⟩
    · simp
    · rw [hl] at h; simp at h; omega

theorem msrFuel_spec [LinearOrder α] : ∀ (n : Nat) (l : LinkedList α) (fuel : Nat), wf l →
    l.elems.length = n → n < fuel →
    ∃ r : LinkedList α, mergeSortRecursiveFuel fuel l = .ok r ∧ wf r ∧
      r.elems.Perm l.elems ∧ r.elems.Sorted (· ≤ ·) := by
  intro n
  induction n using Nat.strong_induction_on with
  | _ n ih =>
    intro l fuel hw hn hfuel
    rcases fuel with _ | fuel
    · omega
    rw [mergeSortRecursiveFuel]
    by_cases h2 : l.size_ < 2
    · rw [if_pos h2]
      refine ⟨listCopy l, rfl, listCopy_wf l, ?_, ?_⟩
      · rw [listCopy_spec]
      · rw [listCopy_spec]
        exact sorted_of_short l (by rw [wf] at hw; omega)
    · rw [if_neg h2]
      have hlen2 : 2 ≤ l.elems.length := by rw [wf] at hw; omega
      rw [splitHalves_spec l hw, bindOk]
      have hfront : front (⟨[⟨l.elems.take (l.elems.length - l.elems.length / 2),
             ((l.elems.length - l.elems.length / 2 : Nat) : Int)⟩,
            ⟨l.elems.drop (l.elems.length - l.elems.length / 2),
             ((l.elems.length / 2 : Nat) : Int)⟩], 2⟩ : LinkedList (LinkedList α)) =
          .ok ⟨l.elems.take (l.elems.length - l.elems.length / 2),
             ((l.elems.length - l.elems.length / 2 : Nat) : Int)⟩ := rfl
      have hback : back (⟨[⟨l.elems.take (l.elems.length - l.elems.length / 2),
             ((l.elems.length - l.elems.length / 2 : Nat) : Int)⟩,
            ⟨l.elems.drop (l.elems.length - l.elems.length / 2),
             ((l.elems.length / 2 : Nat) : Int)⟩], 2⟩ : LinkedList (LinkedList α)) =
          .ok ⟨l.elems.drop (l.elems.length - l.elems.length / 2),
             ((l.elems.length / 2 : Nat) : Int)⟩ := rfl
      rw [hfront, bindOk, hback, bindOk]
      have hLwf : wf (⟨l.elems.take (l.elems.length - l.elems.length / 2),
          ((l.elems.length - l.elems.length / 2 : Nat) : Int)⟩ : LinkedList α) := by
        rw [wf]
        simp only [List.length_take]
        congr 1
        omega
      have hRwf : wf (⟨l.elems.drop (l.elems.length - l.elems.length / 2),
          ((l.elems.length / 2 : Nat) : Int)⟩ : LinkedList α) := by
        rw [wf]
        simp only [List.length_drop]
        congr 1
        omega
      obtain ⟨LS, hLS, hLSwf, hLSperm, hLSsort⟩ :=
        ih (l.elems.length - l.elems.length / 2) (by omega)
          ⟨l.elems.take (l.elems.length - l.elems.length / 2),
           ((l.elems.length - l.elems.length / 2 : Nat) : Int)⟩ fuel hLwf
          (by simp only [List.length_take]; omega) (by omega)
      obtain ⟨RS, hRS, hRSwf, hRSperm, hRSsort⟩ :=
        ih (l.elems.length / 2) (by omega)
          ⟨l.elems.drop (l.elems.length - l.elems.length / 2),
           ((l.elems.length / 2 : Nat) : Int)⟩ fuel hRwf
          (by simp only [List.length_drop]; omega) (by omega)
      rw [hLS, bindOk, hRS, bindOk]
      refine ⟨LS.merge RS, rfl, merge_wf LS RS, ?_, merge_sorted LS RS hLSsort hRSsort⟩
      refine (merge_perm LS RS).trans ?_
      refine (hLSperm.append hRSperm).trans ?_
      exact List.Perm.of_eq (List.take_append_drop _ _)

theorem mergeSortRecursive_spec [LinearOrder α] (l : LinkedList α) (hw : wf l) :
    ∃ r : LinkedList α, mergeSortRecursive l = .ok r ∧ wf r ∧
      r.elems.Perm l.elems ∧ r.elems.Sorted (· ≤ ·) :=
  msrFuel_spec l.elems.length l (l.elems.length + 1) hw rfl (by omega)

theorem explodeLoop_spec : ∀ (m : Nat) (w : LinkedList α) (lists : LinkedList (LinkedList α)),
    w.elems.length = m → wf w →
    explodeLoop w lists = .ok ⟨lists.elems ++ w.elems.map (fun v => (⟨[v], 1⟩ : LinkedList α)),
                               lists.size_ + (w.elems.length : Int)⟩ := by
  intro m
  induction m using Nat.strong_induction_on with
  | _ m ih =>
    intro w lists hm hw
    rw [explodeLoop]
    split
    · rename_i hE
      rw [hE]
      simp
    · rename_i x rest hE
      have hf0 : front w = .ok x := front_spec w x rest hE
      have hp0 : popFront w = .ok ⟨rest, w.size_ - 1⟩ := popFront_spec w x rest hE hw
      split
      · rename_i e heq
        rw [hf0] at heq
        cases heq
      · rename_i a e heqf heqp
        rw [hp0] at heqp
        cases heqp
      · rename_i xv w2 heqf heqp
        rw [hf0] at heqf
        injection heqf with h1
        subst h1
        rw [hp0] at heqp
        injection heqp with h2
        subst h2
        have hw2 : wf (⟨rest, w.size_ - 1⟩ : LinkedList α) :=
          pop_wf w hw rest (by rw [hE]; simp)
        rw [ih rest.length (by rw [hE] at hm; simp at hm; omega) ⟨rest, w.size_ - 1⟩
          (lists.pushBack (emptyList.pushBack x)) rfl hw2]
        rw [hE]
        simp only [pushBack, emptyList, List.nil_append, List.append_assoc, List.map_cons,
          List.singleton_append, List.length_cons, Except.ok.injEq, mk.injEq, zero_add]
        constructor
        · trivial
        · push_cast
          ring

theorem explode_spec (l : LinkedList α) (hw : wf l) :
    explode l = .ok ⟨l.elems.map (fun v => (⟨[v], 1⟩ : LinkedList α)), (l.elems.length : Int)⟩ := by
  rw [explode]
  rw [explodeLoop_spec (listCopy l).elems.length (listCopy l) emptyList rfl (listCopy_wf l)]
  rw [listCopy_spec]
  simp [emptyList]

theorem flatten_map_singleton (e : List α) :
    (e.map (fun v => [v])).flatten = e := by
  induction e with
  | nil => rfl
  | cons x rest ih => simp [ih]

theorem mergeLoop_step [LinearOrder α] (q : LinkedList (LinkedList α)) (hq : wf q)
    (L R : LinkedList α) (rest : List (LinkedList α)) (hq1 : q.elems = L :: R :: rest)
    (hgt : 1 < q.size_) :
    mergeLoop q = mergeLoop (⟨rest ++ [L.merge R], q.size_ - 1⟩ : LinkedList (LinkedList α)) := by
  have hle : ¬ q.size_ ≤ 1 := by omega
  have hf1 : front q = .ok L := front_spec q L (R :: rest) hq1
  have hp1 : popFront q = .ok ⟨R :: rest, q.size_ - 1⟩ :=
    popFront_spec q L (R :: rest) hq1 hq
  have hq1wf : wf (⟨R :: rest, q.size_ - 1⟩ : LinkedList (LinkedList α)) :=
    pop_wf q hq (R :: rest) (by rw [hq1]; simp)
  have hf2 : front (⟨R :: rest, q.size_ - 1⟩ : LinkedList (LinkedList α)) = .ok R := rfl
  have hp2 : popFront (⟨R :: rest, q.size_ - 1⟩ : LinkedList (LinkedList α)) =
      .ok ⟨rest, q.size_ - 1 - 1⟩ :=
    popFront_spec _ R rest rfl hq1wf
  conv_lhs => rw [mergeLoop]
  rw [dif_neg hle]
  split
  · rename_i e heq
    rw [hf1] at heq; cases heq
  · rename_i a e heqf heqp
    rw [hp1] at heqp; cases heqp
  · rename_i xv w2 heqf heqp
    rw [hf1] at heqf
    injection heqf with hL
    subst hL
    rw [hp1] at heqp
    injection heqp with hq1'
    subst hq1'
    split
    · rename_i e heq
      rw [hf2] at heq; cases heq
    · rename_i a e heqf2 heqp2
      rw [hp2] at heqp2; cases heqp2
    · rename_i yv w3 heqf2 heqp2
      rw [hf2] at heqf2
      injection heqf2 with hR
      subst hR
      rw [hp2] at heqp2
      injection heqp2 with hq2'
      subst hq2'
      show mergeLoop _ = _
      congr 1
      show (⟨rest ++ [L.merge R], q.size_ - 1 - 1 + 1⟩ : LinkedList (LinkedList α)) = _
      congr 1
      omega

theorem mergeLoop_spec [LinearOrder α] : ∀ (m : Nat) (q : LinkedList (LinkedList α)),
    q.elems.length = m → wf q → q.elems ≠ [] →
    (∀ li ∈ q.elems, wf li ∧ li.elems.Sorted (· ≤ ·)) →
    ∃ r : LinkedList α, mergeLoop q = .ok ⟨[r], 1⟩ ∧ wf r ∧ r.elems.Sorted (· ≤ ·) ∧
      r.elems.Perm (q.elems.map elems).flatten := by
  intro m
  induction m using Nat.strong_induction_on with
  | _ m ih =>
    intro q hm hq hne hmem
    by_cases hle : q.size_ ≤ 1
    · have hpos : 0 < q.elems.length := List.length_pos.mpr hne
      have hlen1 : q.elems.length = 1 := by rw [wf] at hq; omega
      obtain ⟨r, hr⟩ : ∃ r, q.elems = [r] := List.length_eq_one.mp hlen1
      have h2 : q.size_ = 1 := by rw [wf, hr] at hq; simpa using hq
      refine ⟨r, ?_, (hmem r (by rw [hr]; simp)).1, (hmem r (by rw [hr]; simp)).2, ?_⟩
      · have hq_eq : q = (⟨[r], (1 : Int)⟩ : LinkedList (LinkedList α)) := by
          obtain ⟨qe, qs⟩ := q
          simp only at hr h2
          rw [hr, h2]
        rw [mergeLoop, dif_pos hle, hq_eq]
      · rw [hr]
        simp
    · have hlen2 : 2 ≤ q.elems.length := by rw [wf] at hq; omega
      rcases hq1 : q.elems with _ | ⟨L, rest1⟩
      · rw [hq1] at hlen2; simp at hlen2
      rcases rest1 with _ | ⟨R, rest⟩
      · rw [hq1] at hlen2; simp at hlen2
      rw [mergeLoop_step q hq L R rest hq1 (by omega)]
      have hq3wf : wf (⟨rest ++ [L.merge R], q.size_ - 1⟩ : LinkedList (LinkedList α)) := by
        rw [wf] at hq ⊢
        rw [hq1] at hq
        simp at hq ⊢
        omega
      have hq3mem : ∀ li ∈ (⟨rest ++ [L.merge R], q.size_ - 1⟩ :
          LinkedList (LinkedList α)).elems, wf li ∧ li.elems.Sorted (· ≤ ·) := by
        intro li hli
        simp only [List.mem_append, List.mem_singleton] at hli
        rcases hli with hli | hli
        · exact hmem li (by rw [hq1]; simp [hli])
        · subst hli
          exact ⟨merge_wf L R, merge_sorted L R
            (hmem L (by rw [hq1]; simp)).2 (hmem R (by rw [hq1]; simp)).2⟩
      obtain ⟨r, hrEq, hrwf, hrsort, hrperm⟩ :=
        ih (rest.length + 1) (by rw [hq1] at hm; simp at hm; omega)
          ⟨rest ++ [L.merge R], q.size_ - 1⟩
          (by simp) hq3wf (by simp) hq3mem
      refine ⟨r, hrEq, hrwf, hrsort, ?_⟩
      refine hrperm.trans ?_
      have hflat : ((⟨rest ++ [L.merge R], q.size_ - 1⟩ :
          LinkedList (LinkedList α)).elems.map elems).flatten
          = (rest.map elems).flatten ++ (L.merge R).elems := by
        simp
      rw [hflat]
      refine (List.Perm.append_left _ (merge_perm L R)).trans ?_
      refine List.perm_append_comm.trans ?_
      exact List.Perm.of_eq (by simp [List.append_assoc])

theorem mergeSortIterative_spec [LinearOrder α] (l : LinkedList α) (hw : wf l) :
    ∃ r : LinkedList α, mergeSortIterative l = .ok r ∧ wf r ∧
      r.elems.Perm l.elems ∧ r.elems.Sorted (· ≤ ·) := by
  rw [mergeSortIterative]
  by_cases h2 : l.size_ < 2
  · rw [if_pos h2]
    exact ⟨listCopy l, rfl, listCopy_wf l, by rw [listCopy_spec],
      by rw [listCopy_spec]; exact sorted_of_short l (by rw [wf] at hw; omega)⟩
  · rw [if_neg h2]
    have hlen2 : 2 ≤ l.elems.length := by rw [wf] at hw; omega
    rw [explode_spec l hw, bindOk]
    have hQwf : wf (⟨l.elems.map (fun v => (⟨[v], 1⟩ : LinkedList α)),
        (l.elems.length : Int)⟩ : LinkedList (LinkedList α)) := by
      rw [wf]
      simp
    have hQne : (⟨l.elems.map (fun v => (⟨[v], 1⟩ : LinkedList α)),
        (l.elems.length : Int)⟩ : LinkedList (LinkedList α)).elems ≠ [] := by
      simp only [ne_eq, List.map_eq_nil_iff]
      intro hc
      rw [hc] at hlen2
      simp at hlen2
    have hQmem : ∀ li ∈ (⟨l.elems.map (fun v => (⟨[v], 1⟩ : LinkedList α)),
        (l.elems.length : Int)⟩ : LinkedList (LinkedList α)).elems,
        wf li ∧ li.elems.Sorted (· ≤ ·) := by
      intro li hli
      simp only [List.mem_map] at hli
      obtain ⟨v, _, rfl⟩ := hli
      refine ⟨?_, by simp⟩
      rw [wf]
      simp
    obtain ⟨r, hrEq, hrwf, hrsort, hrperm⟩ :=
      mergeLoop_spec (l.elems.map (fun v => (⟨[v], 1⟩ : LinkedList α))).length
        ⟨l.elems.map (fun v => (⟨[v], 1⟩ : LinkedList α)), (l.elems.length : Int)⟩
        rfl hQwf hQne hQmem
    rw [hrEq, bindOk]
    refine ⟨r, rfl, hrwf, ?_, hrsort⟩
    refine hrperm.trans (List.Perm.of_eq ?_)
    simp only [List.map_map]
    exact flatten_map_singleton l.elems

theorem clearLoop_spec : ∀ (m : Nat) (l : LinkedList α), l.elems.length = m → wf l →
    clearLoop l = .ok emptyList := by
  intro m
  induction m using Nat.strong_induction_on with
  | _ m ih =>
    intro l hm hw
    rw [clearLoop]
    split
    · rename_i hE
      have h0 : l.size_ = 0 := by rw [wf, hE] at hw; simpa using hw
      have : l = emptyList := by
        obtain ⟨le, ls⟩ := l
        simp only at hE h0
        rw [emptyList, hE, h0]
      rw [this]
    · rename_i x rest hE
      have hpop : popBack l = .ok ⟨l.elems.dropLast, l.size_ - 1⟩ :=
        popBack_spec l (by rw [hE]; simp) hw
      split
      · rename_i e heq
        rw [hpop] at heq; cases heq
      · rename_i l2 heq
        rw [hpop] at heq
        injection heq with h2
        subst h2
        have hw2 : wf (⟨l.elems.dropLast, l.size_ - 1⟩ : LinkedList α) :=
          pop_wf l hw l.elems.dropLast (by rw [hE]; simp)
        exact ih l.elems.dropLast.length
          (by rw [hE] at hm ⊢; simp at hm ⊢; omega) _ rfl hw2

theorem clear_spec (l : LinkedList α) (hw : wf l) : clear l = .ok emptyList := by
  rw [clear, clearLoop_spec l.elems.length l rfl hw, bindOk]
  rw [if_neg (by rw [emptyList]; simp)]

theorem copyAssignSelf_spec (l : LinkedList α) (hw : wf l) :
    copyAssignSelf l = .ok emptyList := by
  rw [copyAssignSelf, clear_spec l hw, bindOk]
  rfl

/-- C1: for every well-formed list L, mergeSort() returns a list on which
isSorted() reports true, whose size() equals the size() of L, and whose chain
holds exactly the same multiset of elements as the chain of L (stated as a
permutation). -/
theorem c1_mergeSort_correct [LinearOrder α] (l : LinkedList α) (hw : wf l) :
    ∃ r : LinkedList α, mergeSort l = .ok r ∧ isSorted r = .ok true ∧
      size r = size l ∧ r.elems.Perm l.elems := by
  obtain ⟨r, hr, hrwf, hperm, hsort⟩ := mergeSortRecursive_spec l hw
  refine ⟨r, hr, isSorted_spec r hrwf hsort, ?_, hperm⟩
  rw [size, size, hrwf, hw, hperm.length_eq]

theorem c1_mergeSort_correct_witness :
    wf (⟨[5, 3, 8, 1], 4⟩ : LinkedList Int) ∧
    ∃ r : LinkedList Int, mergeSort ⟨[5, 3, 8, 1], 4⟩ = .ok r ∧ isSorted r = .ok true ∧
      size r = size (⟨[5, 3, 8, 1], 4⟩ : LinkedList Int) ∧ r.elems.Perm [5, 3, 8, 1] :=
  ⟨by decide, c1_mergeSort_correct ⟨[5, 3, 8, 1], 4⟩ (by decide)⟩

/-- C2: on every well-formed input list, mergeSortRecursive and
mergeSortIterative both succeed and produce identical output sequences. -/
theorem c2_recursive_iterative_agree [LinearOrder α] (l : LinkedList α) (hw : wf l) :
    ∃ r1 r2 : LinkedList α, mergeSortRecursive l = .ok r1 ∧ mergeSortIterative l = .ok r2 ∧
      r1.elems = r2.elems := by
  obtain ⟨r1, h1, hw1, hp1, hs1⟩ := mergeSortRecursive_spec l hw
  obtain ⟨r2, h2, hw2, hp2, hs2⟩ := mergeSortIterative_spec l hw
  exact ⟨r1, r2, h1, h2, List.eq_of_perm_of_sorted (hp1.trans hp2.symm) hs1 hs2⟩

theorem c2_recursive_iterative_agree_witness :
    wf (⟨[3, 1, 2, 3, 1], 5⟩ : LinkedList Int) ∧
    ∃ r1 r2 : LinkedList Int, mergeSortRecursive ⟨[3, 1, 2, 3, 1], 5⟩ = .ok r1 ∧
      mergeSortIterative ⟨[3, 1, 2, 3, 1], 5⟩ = .ok r2 ∧ r1.elems = r2.elems :=
  ⟨by decide, c2_recursive_iterative_agree ⟨[3, 1, 2, 3, 1], 5⟩ (by decide)⟩

/-- C4: splitHalves() on a well-formed list of chain length n yields the pair
of halves: the right half is exactly the floor(n/2) tail-most elements in
original order, the left half the remaining leading elements in original
order, their concatenation is the original sequence, their sizes sum to the
size of the original, and for n < 2 the left half is a copy of the whole list
while the right half is empty. -/
theorem c4_splitHalves_correct (l : LinkedList α) (hw : wf l) :
    ∃ left right : LinkedList α, splitHalves l = .ok ⟨[left, right], 2⟩ ∧
      right.elems = l.elems.drop (l.elems.length - l.elems.length / 2) ∧
      left.elems = l.elems.take (l.elems.length - l.elems.length / 2) ∧
      left.elems ++ right.elems = l.elems ∧
      right.elems.length = l.elems.length / 2 ∧
      size left + size right = size l ∧
      (l.elems.length < 2 → left.elems = l.elems ∧ right.elems = []) := by
  refine ⟨_, _, splitHalves_spec l hw, rfl, rfl, List.take_append_drop _ _,
    by simp only [List.length_drop]; omega, ?_, ?_⟩
  · rw [wf] at hw
    simp only [size]
    push_cast
    omega
  · intro hlt
    have hdiv : l.elems.length / 2 = 0 := by omega
    constructor
    · simp only [hdiv, Nat.sub_zero, List.take_length]
    · simp only [hdiv, Nat.sub_zero, List.drop_length]

theorem c4_splitHalves_correct_witness :
    wf (⟨[1, 2, 3], 3⟩ : LinkedList Int) ∧
    ∃ left right : LinkedList Int, splitHalves ⟨[1, 2, 3], 3⟩ = .ok ⟨[left, right], 2⟩ ∧
      right.elems = [3] ∧ left.elems = [1, 2] ∧ left.elems ++ right.elems = [1, 2, 3] ∧
      right.elems.length = 1 ∧ size left + size right = 3 ∧
      (([1, 2, 3] : List Int).length < 2 → left.elems = [1, 2, 3] ∧ right.elems = []) :=
  ⟨by decide, c4_splitHalves_correct ⟨[1, 2, 3], 3⟩ (by decide)⟩

/-- C6: on a list with an empty chain, front() and back() signal the
recoverable empty-container errors with their exact messages, while
popFront() and popBack() are error-free no-ops returning the list
unchanged. -/
theorem c6_empty_list_behavior (l : LinkedList α) (hE : l.elems = []) :
    front l = .error ("front() called on empty LinkedList") ∧
    back l = .error ("back() called on empty LinkedList") ∧
    popFront l = .ok l ∧ popBack l = .ok l := by
  refine ⟨?_, ?_, ?_, ?_⟩
  · unfold front
    rw [hE]
  · unfold back
    rw [hE]
    rfl
  · unfold popFront
    rw [hE]
  · unfold popBack
    rw [hE]

theorem c6_empty_list_behavior_witness :
    (emptyList : LinkedList Int).elems = [] ∧
    (front (emptyList : LinkedList Int) = .error ("front() called on empty LinkedList") ∧
     back (emptyList : LinkedList Int) = .error ("back() called on empty LinkedList") ∧
     popFront (emptyList : LinkedList Int) = .ok emptyList ∧
     popBack (emptyList : LinkedList Int) = .ok emptyList) :=
  ⟨rfl, c6_empty_list_behavior emptyList rfl⟩

/-- C7: on a well-formed list, pushBack(v) immediately followed by popBack()
returns the original list state unchanged and without error, and likewise
pushFront(v) followed by popFront(). -/
theorem c7_push_pop_identity (l : LinkedList α) (v : α) (hw : wf l) :
    popBack (pushBack l v) = .ok l ∧ popFront (pushFront l v) = .ok l := by
  constructor
  · have h1 := popBack_spec (pushBack l v) (by simp [pushBack])
      (by rw [wf] at hw ⊢; simp only [pushBack]; simp; omega)
    rw [h1]
    simp only [pushBack, List.dropLast_concat]
    have hs : l.size_ + 1 - 1 = l.size_ := by ring
    rw [hs]
  · have h1 := popFront_spec (pushFront l v) v l.elems rfl
      (by rw [wf] at hw ⊢; simp only [pushFront]; simp; omega)
    rw [h1]
    have hs : (pushFront l v).size_ - 1 = l.size_ := by simp [pushFront]
    rw [hs]

theorem c7_push_pop_identity_witness :
    wf (⟨[4, 9], 2⟩ : LinkedList Int) ∧
    (popBack (pushBack ⟨[4, 9], 2⟩ (7 : Int)) = .ok ⟨[4, 9], 2⟩ ∧
     popFront (pushFront ⟨[4, 9], 2⟩ (7 : Int)) = .ok ⟨[4, 9], 2⟩) :=
  ⟨by decide, c7_push_pop_identity ⟨[4, 9], 2⟩ 7 (by decide)⟩

/-- C10: copy-assigning a well-formed list to itself leaves it empty: the
operator clears the object first and then copies from the head of the same,
already cleared, object, so the copy loop finds nothing to copy. -/
theorem c10_self_assignment_empties (l : LinkedList α) (hw : wf l) :
    copyAssignSelf l = .ok emptyList :=
  copyAssignSelf_spec l hw

theorem c10_self_assignment_empties_witness :
    wf (⟨[1, 2, 3], 3⟩ : LinkedList Int) ∧
    copyAssignSelf (⟨[1, 2, 3], 3⟩ : LinkedList Int) = .ok emptyList :=
  ⟨by decide, c10_self_assignment_empties ⟨[1, 2, 3], 3⟩ (by decide)⟩

theorem eqLoop_self_ends [DecidableEq α] : ∀ xs rest : List α,
    eqLoop xs (xs ++ rest) = .ok true := by
  intro xs
  induction xs with
  | nil => intro rest; rfl
  | cons x xs ih =>
    intro rest
    rw [List.cons_append, eqLoop, if_neg (not_not_intro rfl)]
    exact ih rest

theorem eqLoop_other_ends [DecidableEq α] : ∀ xs rest : List α, rest ≠ [] →
    eqLoop (xs ++ rest) xs =
      .error ("Error in equals: " ++ "otherCur missing a node or wrong item count") := by
  intro xs
  induction xs with
  | nil =>
    intro rest hne
    rcases rest with _ | ⟨r, rest2⟩
    · exact absurd rfl hne
    · rfl
  | cons x xs ih =>
    intro rest hne
    rw [List.cons_append, eqLoop, if_neg (not_not_intro rfl)]
    exact ih rest hne

theorem eqLoop_no_shared_extension [DecidableEq α] : ∀ xs ys : List α,
    (¬ ∃ r, ys = xs ++ r) → (¬ ∃ r, xs = ys ++ r) → eqLoop xs ys = .ok false := by
  intro xs
  induction xs with
  | nil => intro ys h1 _; exact absurd ⟨ys, rfl⟩ h1
  | cons x xs ih =>
    intro ys h1 h2
    rcases ys with _ | ⟨y, ys⟩
    · exact absurd ⟨x :: xs, rfl⟩ h2
    · rw [eqLoop]
      by_cases hxy : x = y
      · subst hxy
        rw [if_neg (not_not_intro rfl)]
        apply ih
        · intro ⟨r, hr⟩
          exact h1 ⟨r, by rw [hr, List.cons_append]⟩
        · intro ⟨r, hr⟩
          exact h2 ⟨r, by rw [hr, List.cons_append]⟩
      · rw [if_pos hxy]

/-- C8 counterexample: with this list having the empty chain and declared size
1 and the other list having a one-node chain and declared size 1, the declared
sizes agree and the chain of this list ends before the chain of the other, yet
equals returns ok true instead of signalling the fatal internal error the
claim requires for either early-ending side. -/
theorem c8_counterexample :
    equals (⟨[], 1⟩ : LinkedList Int) ⟨[7], 1⟩ = .ok true ∧
    ¬ (∀ l other : LinkedList Int, l.size_ = other.size_ →
        l.elems.length ≠ other.elems.length →
        ∃ msg : String, equals l other = .error msg) := by
  constructor
  · rfl
  · intro hclaim
    obtain ⟨msg, hmsg⟩ := hclaim ⟨[], 1⟩ ⟨[7], 1⟩ rfl (by decide)
    rw [show equals (⟨[], 1⟩ : LinkedList Int) ⟨[7], 1⟩ = .ok true from rfl] at hmsg
    cases hmsg

/-- C8 amended: equals(other) returns false immediately when the declared
sizes differ; with equal declared sizes it walks both chains in lockstep
comparing values, and only when the chain of the other list ends while the
chain of this list still has nodes (values matching up to that point) does it
signal the fatal internal-invariant error; when the chain of this list ends
first the walk stops and it returns true, and on the first value mismatch it
returns false. -/
theorem c8_equals_characterization [DecidableEq α] (l other : LinkedList α) :
    (l.size_ ≠ other.size_ → equals l other = .ok false) ∧
    (l.size_ = other.size_ →
      ((∃ r, other.elems = l.elems ++ r) → equals l other = .ok true) ∧
      (∀ r, l.elems = other.elems ++ r → r ≠ [] →
        equals l other =
          .error ("Error in equals: " ++ "otherCur missing a node or wrong item count")) ∧
      ((¬ ∃ r, other.elems = l.elems ++ r) → (¬ ∃ r, l.elems = other.elems ++ r) →
        equals l other = .ok false)) := by
  constructor
  · intro hne
    rw [equals, if_pos hne]
  · intro heq
    refine ⟨?_, ?_, ?_⟩
    · intro ⟨r, hr⟩
      rw [equals, if_neg (not_not_intro heq), hr]
      exact eqLoop_self_ends l.elems r
    · intro r hr hrne
      rw [equals, if_neg (not_not_intro heq), hr]
      exact eqLoop_other_ends other.elems r hrne
    · intro h1 h2
      rw [equals, if_neg (not_not_intro heq)]
      exact eqLoop_no_shared_extension l.elems other.elems h1 h2

theorem c8_equals_characterization_witness :
    ((⟨[1, 2], 2⟩ : LinkedList Int).size_ = (⟨[1], 2⟩ : LinkedList Int).size_) ∧
    (⟨[1, 2], 2⟩ : LinkedList Int).elems = (⟨[1], 2⟩ : LinkedList Int).elems ++ [2] ∧
    ([2] : List Int) ≠ [] ∧
    equals (⟨[1, 2], 2⟩ : LinkedList Int) ⟨[1], 2⟩ =
      .error ("Error in equals: " ++ "otherCur missing a node or wrong item count") :=
  ⟨rfl, rfl, by decide,
    ((c8_equals_characterization (⟨[1, 2], 2⟩ : LinkedList Int) ⟨[1], 2⟩).2 rfl).2.1
      [2] rfl (by decide)⟩

theorem mergeElems_map {β : Type} (le : α → α → Bool) (f : β → α) :
    ∀ xs ys : List β,
      (mergeElems (fun p q => le (f p) (f q)) xs ys).map f
        = mergeElems le (xs.map f) (ys.map f) := by
  intro xs ys
  induction xs, ys using mergeElems.induct (fun p q => le (f p) (f q)) with
  | case1 ys => simp [mergeElems]
  | case2 x xs => simp [mergeElems]
  | case3 x xs y ys h ih =>
    have h2 : le (f x) (f y) = true := h
    simp only [mergeElems, List.map_cons, h2, if_true, List.map_cons, ih]
  | case4 x xs y ys h ih =>
    have h2 : ¬ le (f x) (f y) = true := h
    simp only [mergeElems, List.map_cons, if_neg h2, List.map_cons, ih]

theorem mergeElems_stable_aux [LinearOrder α] :
    ∀ A2 B2 : List (α × Nat), (A2.map Prod.fst).Sorted (· ≤ ·) →
      ∀ v : α,
      (mergeElems (fun p q : α × Nat => decide (p.1 ≤ q.1)) A2 B2).filter
          (fun p => decide (p.1 = v))
        = A2.filter (fun p => decide (p.1 = v)) ++ B2.filter (fun p => decide (p.1 = v)) := by
  intro A2 B2
  induction A2, B2 using mergeElems.induct (fun p q : α × Nat => decide (p.1 ≤ q.1)) with
  | case1 B2 => intro _ v; simp [mergeElems]
  | case2 x xs => intro _ v; simp [mergeElems]
  | case3 x xs y ys h ih =>
    intro hs v
    have hs2 : (xs.map Prod.fst).Sorted (· ≤ ·) := by
      rw [List.map_cons, List.sorted_cons] at hs
      exact hs.2
    have hunf : mergeElems (fun p q : α × Nat => decide (p.1 ≤ q.1)) (x :: xs) (y :: ys)
        = x :: mergeElems (fun p q : α × Nat => decide (p.1 ≤ q.1)) xs (y :: ys) := by
      rw [mergeElems]
      exact if_pos h
    rw [hunf]
    by_cases hx : decide (x.1 = v) = true
    · simp [List.filter_cons, hx, ih hs2 v]
    · simp [List.filter_cons, hx, ih hs2 v]
  | case4 x xs y ys h ih =>
    intro hs v
    have h2 : ¬ decide (x.1 ≤ y.1) = true := h
    have hyx : y.1 < x.1 := by
      simp only [decide_eq_true_eq] at h2
      exact lt_of_not_le h2
    have hunf : mergeElems (fun p q : α × Nat => decide (p.1 ≤ q.1)) (x :: xs) (y :: ys)
        = y :: mergeElems (fun p q : α × Nat => decide (p.1 ≤ q.1)) (x :: xs) ys := by
      rw [mergeElems]
      exact if_neg h
    rw [hunf]
    by_cases hy : decide (y.1 = v) = true
    · have hnil : (x :: xs).filter (fun p => decide (p.1 = v)) = [] := by
        rw [List.filter_eq_nil_iff]
        intro p hp
        have hxp : x.1 ≤ p.1 := by
          rcases List.mem_cons.mp hp with rfl | hpxs
          · exact le_refl _
          · rw [List.map_cons, List.sorted_cons] at hs
            exact hs.1 p.1 (List.mem_map_of_mem Prod.fst hpxs)
        simp only [decide_eq_true_eq]
        intro hpv
        rw [hpv] at hxp
        simp only [decide_eq_true_eq] at hy
        rw [hy] at hyx
        exact absurd (lt_of_lt_of_le hyx hxp) (lt_irrefl _)
      simp [List.filter_cons, hy, ih hs v, hnil]
    · simp [List.filter_cons, hy, ih hs v]

/-- C3: merging two sorted lists yields a sorted list whose chain length is
the sum of the chain lengths, whose size() is that same sum, and whose
elements are exactly the multiset union of the two inputs (stated as a
permutation); moreover the merge is stable: running the same merge on the
inputs tagged by origin (0 from this list, 1 from the other, compared on the
value component only, the way the C++ template compares T values) projects
back to the untagged merge, and for every value v the tagged copies of v in
the result are exactly the tagged copies of v from this list followed by the
tagged copies of v from the other list, so every copy coming from the first
list precedes every copy coming from the second. -/
theorem c3_merge_correct [LinearOrder α] (A B : LinkedList α)
    (hA : A.elems.Sorted (· ≤ ·)) (hB : B.elems.Sorted (· ≤ ·)) :
    ((A.merge B).elems.Sorted (· ≤ ·) ∧
     (A.merge B).elems.length = A.elems.length + B.elems.length ∧
     size (A.merge B) = ((A.elems.length + B.elems.length : Nat) : Int) ∧
     (A.merge B).elems.Perm (A.elems ++ B.elems)) ∧
    ((mergeElems (fun p q : α × Nat => decide (p.1 ≤ q.1))
        (A.elems.map (fun a => (a, 0))) (B.elems.map (fun b => (b, 1)))).map Prod.fst
      = (A.merge B).elems ∧
     ∀ v : α,
      (mergeElems (fun p q : α × Nat => decide (p.1 ≤ q.1))
          (A.elems.map (fun a => (a, 0))) (B.elems.map (fun b => (b, 1)))).filter
          (fun p => decide (p.1 = v))
        = (A.elems.filter (fun a => decide (a = v))).map (fun a => (a, 0))
          ++ (B.elems.filter (fun b => decide (b = v))).map (fun b => (b, 1))) := by
  have hperm := merge_perm A B
  have hlen : (A.merge B).elems.length = A.elems.length + B.elems.length := by
    rw [hperm.length_eq, List.length_append]
  refine ⟨⟨merge_sorted A B hA hB, hlen, ?_, hperm⟩, ?_, ?_⟩
  · show ((A.merge B).elems.length : Int) = _
    rw [hlen]
  · rw [merge_elems]
    have := mergeElems_map (fun a b : α => decide (a ≤ b)) (Prod.fst : α × Nat → α)
      (A.elems.map (fun a => (a, 0))) (B.elems.map (fun b => (b, 1)))
    rw [this]
    congr 1 <;> · rw [List.map_map]; exact List.map_id ..
  · intro v
    have hsA : ((A.elems.map (fun a => (a, 0))).map Prod.fst).Sorted (· ≤ ·) := by
      rw [List.map_map]
      have hid : (Prod.fst ∘ fun a : α => (a, (0 : Nat))) = id := rfl
      rw [hid, List.map_id]
      exact hA
    rw [mergeElems_stable_aux (A.elems.map (fun a => (a, 0)))
      (B.elems.map (fun b => (b, 1))) hsA v]
    congr 1 <;> rw [List.filter_map] <;> rfl

theorem c3_merge_correct_witness :
    ([1, 3, 5] : List Int).Sorted (· ≤ ·) ∧ ([2, 2, 4] : List Int).Sorted (· ≤ ·) ∧
    ((((⟨[1, 3, 5], 3⟩ : LinkedList Int).merge ⟨[2, 2, 4], 3⟩).elems.Sorted (· ≤ ·) ∧
      ((⟨[1, 3, 5], 3⟩ : LinkedList Int).merge ⟨[2, 2, 4], 3⟩).elems.length = 3 + 3 ∧
      size ((⟨[1, 3, 5], 3⟩ : LinkedList Int).merge ⟨[2, 2, 4], 3⟩) = ((3 + 3 : Nat) : Int) ∧
      ((⟨[1, 3, 5], 3⟩ : LinkedList Int).merge ⟨[2, 2, 4], 3⟩).elems.Perm
        ([1, 3, 5] ++ [2, 2, 4])) ∧
     ((mergeElems (fun p q : Int × Nat => decide (p.1 ≤ q.1))
         (([1, 3, 5] : List Int).map (fun a => (a, 0)))
         (([2, 2, 4] : List Int).map (fun b => (b, 1)))).map Prod.fst
       = ((⟨[1, 3, 5], 3⟩ : LinkedList Int).merge ⟨[2, 2, 4], 3⟩).elems ∧
      ∀ v : Int,
       (mergeElems (fun p q : Int × Nat => decide (p.1 ≤ q.1))
           (([1, 3, 5] : List Int).map (fun a => (a, 0)))
           (([2, 2, 4] : List Int).map (fun b => (b, 1)))).filter
           (fun p => decide (p.1 = v))
         = (([1, 3, 5] : List Int).filter (fun a => decide (a = v))).map (fun a => (a, 0))
           ++ (([2, 2, 4] : List Int).filter (fun b => decide (b = v))).map (fun b => (b, 1)))) :=
  ⟨by decide, by decide,
    c3_merge_correct (⟨[1, 3, 5], 3⟩ : LinkedList Int) ⟨[2, 2, 4], 3⟩ (by decide) (by decide)⟩

/-- C9: the two merge sorts terminate on every well-formed list: for chain
length at least 2, splitHalves produces two strictly smaller halves (so the
recursion of mergeSortRecursive is well founded and the recursion fuel
elems.length + 1 is never exhausted), mergeSortIterative returns a result,
and each iteration of the work-queue loop of mergeSortIterative shrinks the
queue by exactly one entry (two lists dequeued, one enqueued). -/
theorem c9_termination [LinearOrder α] :
    (∀ l : LinkedList α, wf l → 2 ≤ l.elems.length →
      ∃ left right : LinkedList α, splitHalves l = .ok ⟨[left, right], 2⟩ ∧
        left.elems.length < l.elems.length ∧ right.elems.length < l.elems.length) ∧
    (∀ l : LinkedList α, wf l →
      ∃ r : LinkedList α, mergeSortRecursiveFuel (l.elems.length + 1) l = .ok r) ∧
    (∀ l : LinkedList α, wf l → ∃ r : LinkedList α, mergeSortIterative l = .ok r) ∧
    (∀ q : LinkedList (LinkedList α), wf q → 1 < q.size_ →
      ∃ q2 : LinkedList (LinkedList α), mergeLoop q = mergeLoop q2 ∧
        q2.elems.length + 1 = q.elems.length) := by
  refine ⟨?_, ?_, ?_, ?_⟩
  · intro l hw h2
    refine ⟨_, _, splitHalves_spec l hw, ?_, ?_⟩
    · simp only [List.length_take]
      omega
    · simp only [List.length_drop]
      omega
  · intro l hw
    obtain ⟨r, hr, _, _, _⟩ := msrFuel_spec l.elems.length l (l.elems.length + 1) hw rfl (by omega)
    exact ⟨r, hr⟩
  · intro l hw
    obtain ⟨r, hr, _, _, _⟩ := mergeSortIterative_spec l hw
    exact ⟨r, hr⟩
  · intro q hq hgt
    have hlen2 : 2 ≤ q.elems.length := by rw [wf] at hq; omega
    rcases hq1 : q.elems with _ | ⟨L, rest1⟩
    · rw [hq1] at hlen2; simp at hlen2
    rcases rest1 with _ | ⟨R, rest⟩
    · rw [hq1] at hlen2; simp at hlen2
    refine ⟨⟨rest ++ [L.merge R], q.size_ - 1⟩, mergeLoop_step q hq L R rest hq1 hgt, ?_⟩
    simp

theorem c9_termination_witness :
    (wf (⟨[4, 1, 3], 3⟩ : LinkedList Int) ∧ 2 ≤ ([4, 1, 3] : List Int).length) ∧
    (∃ left right : LinkedList Int, splitHalves ⟨[4, 1, 3], 3⟩ = .ok ⟨[left, right], 2⟩ ∧
      left.elems.length < 3 ∧ right.elems.length < 3) ∧
    (∃ r : LinkedList Int, mergeSortRecursiveFuel (3 + 1) (⟨[4, 1, 3], 3⟩ : LinkedList Int) = .ok r) ∧
    (∃ r : LinkedList Int, mergeSortIterative (⟨[4, 1, 3], 3⟩ : LinkedList Int) = .ok r) ∧
    (wf (⟨[⟨[1], 1⟩, ⟨[2], 1⟩], 2⟩ : LinkedList (LinkedList Int)) ∧
     ∃ q2 : LinkedList (LinkedList Int),
       mergeLoop (⟨[⟨[1], 1⟩, ⟨[2], 1⟩], 2⟩ : LinkedList (LinkedList Int)) = mergeLoop q2 ∧
       q2.elems.length + 1 = 2) :=
  ⟨⟨by decide, by decide⟩,
   c9_termination.1 ⟨[4, 1, 3], 3⟩ (by decide) (by decide),
   c9_termination.2.1 ⟨[4, 1, 3], 3⟩ (by decide),
   c9_termination.2.2.1 ⟨[4, 1, 3], 3⟩ (by decide),
   ⟨by decide, c9_termination.2.2.2 ⟨[⟨[1], 1⟩, ⟨[2], 1⟩], 2⟩ (by decide) (by decide)⟩⟩

end LinkedList


section HeapLemmas

variable {α : Type}

theorem getElem?_set_at {β : Type} (l : List β) (i : Nat) (x : β) (h : i < l.length) :
    (l.set i x)[i]? = some x := by
  rw [List.getElem?_eq_getElem (by simpa using h)]
  simp

theorem repsSeg_append_iff (mem : List (Option (Node α))) :
    ∀ (xs ys : List Nat) (p c q d : Option Nat),
      repsSeg mem p c (xs ++ ys) q d ↔
        ∃ pm cm, repsSeg mem p c xs pm cm ∧ repsSeg mem pm cm ys q d := by
  intro xs
  induction xs with
  | nil =>
    intro ys p c q d
    simp only [List.nil_append, repsSeg]
    constructor
    · intro h
      exact ⟨p, c, ⟨rfl, rfl⟩, h⟩
    · rintro ⟨pm, cm, ⟨hp, hc⟩, h⟩
      subst hp
      subst hc
      exact h
  | cons a rest ih =>
    intro ys p c q d
    simp only [List.cons_append, repsSeg]
    constructor
    · rintro ⟨hc, n, hn, hprev, hrest⟩
      obtain ⟨pm, cm, h1, h2⟩ := (ih ys (some a) n.next q d).mp hrest
      exact ⟨pm, cm, ⟨hc, n, hn, hprev, h1⟩, h2⟩
    · rintro ⟨pm, cm, ⟨hc, n, hn, hprev, h1⟩, h2⟩
      exact ⟨hc, n, hn, hprev, (ih ys (some a) n.next q d).mpr ⟨pm, cm, h1, h2⟩⟩

theorem repsSeg_mem_valid (mem : List (Option (Node α))) :
    ∀ (addrs : List Nat) (p c q d : Option Nat) (a : Nat),
      repsSeg mem p c addrs q d → a ∈ addrs → ∃ n : Node α, mem[a]? = some (some n) := by
  intro addrs
  induction addrs with
  | nil => intro p c q d a _ ha; cases ha
  | cons a0 rest ih =>
    rintro p c q d a ⟨hc, n, hn, hprev, hrest⟩ ha
    rcases List.mem_cons.mp ha with rfl | ha2
    · exact ⟨n, hn⟩
    · exact ih (some a0) n.next q d a hrest ha2

theorem repsSeg_mem_lt (mem : List (Option (Node α)))
    (addrs : List Nat) (p c q d : Option Nat) (a : Nat)
    (h : repsSeg mem p c addrs q d) (ha : a ∈ addrs) : a < mem.length := by
  obtain ⟨n, hn⟩ := repsSeg_mem_valid mem addrs p c q d a h ha
  exact (List.getElem?_eq_some.mp hn).1

theorem repsSeg_prev_mem (mem : List (Option (Node α))) :
    ∀ (addrs : List Nat) (p c q d : Option Nat) (a : Nat),
      repsSeg mem p c addrs q d → a ∈ addrs →
      ∃ n : Node α, mem[a]? = some (some n) ∧
        (n.prev = p ∨ ∃ w ∈ addrs, n.prev = some w) := by
  intro addrs
  induction addrs with
  | nil => intro p c q d a _ ha; cases ha
  | cons a0 rest ih =>
    rintro p c q d a ⟨hc, n, hn, hprev, hrest⟩ ha
    rcases List.mem_cons.mp ha with rfl | ha2
    · exact ⟨n, hn, Or.inl hprev⟩
    · obtain ⟨n2, hn2, hd⟩ := ih (some a0) n.next q d a hrest ha2
      refine ⟨n2, hn2, ?_⟩
      rcases hd with hd | ⟨w, hw, hd⟩
      · exact Or.inr ⟨a0, by simp, hd⟩
      · exact Or.inr ⟨w, by simp [hw], hd⟩

theorem repsSeg_next_mem (mem : List (Option (Node α))) :
    ∀ (addrs : List Nat) (p c q d : Option Nat) (a : Nat),
      repsSeg mem p c addrs q d → a ∈ addrs →
      ∃ n : Node α, mem[a]? = some (some n) ∧
        (n.next = d ∨ ∃ w ∈ addrs, n.next = some w) := by
  intro addrs
  induction addrs with
  | nil => intro p c q d a _ ha; cases ha
  | cons a0 rest ih =>
    rintro p c q d a ⟨hc, n, hn, hprev, hrest⟩ ha
    rcases List.mem_cons.mp ha with rfl | ha2
    · rcases rest with _ | ⟨b, rest2⟩
      · obtain ⟨hq, hd⟩ := hrest
        exact ⟨n, hn, Or.inl hd.symm⟩
      · obtain ⟨hb, _⟩ := hrest
        exact ⟨n, hn, Or.inr ⟨b, by simp, hb⟩⟩
    · obtain ⟨n2, hn2, hd⟩ := ih (some a0) n.next q d a hrest ha2
      refine ⟨n2, hn2, ?_⟩
      rcases hd with hd | ⟨w, hw, hd⟩
      · exact Or.inl hd
      · exact Or.inr ⟨w, by simp [hw], hd⟩

theorem repsSeg_grow (mem ext : List (Option (Node α))) :
    ∀ (addrs : List Nat) (p c q d : Option Nat),
      repsSeg mem p c addrs q d → repsSeg (mem ++ ext) p c addrs q d := by
  intro addrs
  induction addrs with
  | nil => intro p c q d h; exact h
  | cons a0 rest ih =>
    rintro p c q d ⟨hc, n, hn, hprev, hrest⟩
    refine ⟨hc, n, ?_, hprev, ih (some a0) n.next q d hrest⟩
    rw [List.getElem?_append_left (List.getElem?_eq_some.mp hn).1]
    exact hn

theorem repsSeg_set_frame (mem : List (Option (Node α))) (j : Nat) (x : Option (Node α)) :
    ∀ (addrs : List Nat) (p c q d : Option Nat),
      (∀ a ∈ addrs, a ≠ j) → repsSeg mem p c addrs q d →
      repsSeg (mem.set j x) p c addrs q d := by
  intro addrs
  induction addrs with
  | nil => intro p c q d _ h; exact h
  | cons a0 rest ih =>
    rintro p c q d hne ⟨hc, n, hn, hprev, hrest⟩
    refine ⟨hc, n, ?_, hprev, ih (some a0) n.next q d (fun a ha => hne a (by simp [ha])) hrest⟩
    rw [List.getElem?_set_ne (fun he => (hne a0 (by simp)) he.symm)]
    exact hn

theorem bwdSeg_append (mem : List (Option (Node α))) :
    ∀ (l1 l2 : List Nat) (nx c x1 y1 x2 y2 : Option Nat),
      bwdSeg mem nx c l1 x1 y1 → bwdSeg mem x1 y1 l2 x2 y2 →
      bwdSeg mem nx c (l1 ++ l2) x2 y2 := by
  intro l1
  induction l1 with
  | nil =>
    rintro l2 nx c x1 y1 x2 y2 ⟨h1, h2⟩ h
    subst h1
    subst h2
    exact h
  | cons a rest ih =>
    rintro l2 nx c x1 y1 x2 y2 ⟨hc, n, hn, hnext, hrest⟩ h
    exact ⟨hc, n, hn, hnext, ih l2 (some a) n.prev x1 y1 x2 y2 hrest h⟩

theorem repsSeg_bwdSeg (mem : List (Option (Node α))) :
    ∀ (addrs : List Nat) (p c q d : Option Nat),
      repsSeg mem p c addrs q d → bwdSeg mem d q addrs.reverse c p := by
  intro addrs
  induction addrs with
  | nil =>
    rintro p c q d ⟨h1, h2⟩
    subst h1
    subst h2
    exact ⟨rfl, rfl⟩
  | cons a rest ih =>
    rintro p c q d ⟨hc, n, hn, hprev, hrest⟩
    rw [List.reverse_cons]
    refine bwdSeg_append mem rest.reverse [a] d q n.next (some a) c p
      (ih (some a) n.next q d hrest) ?_
    subst hc
    exact ⟨rfl, n, hn, rfl, rfl, hprev.symm⟩

theorem addrs_of_some_head (l : HeapList α) (addrs : List Nat)
    (hreps : repsSeg l.mem none l.head_ addrs l.tail_ none)
    (h0 : Nat) (hh : l.head_ = some h0) : ∃ front t, addrs = front ++ [t] := by
  have hne : addrs ≠ [] := by
    rcases addrs with _ | _
    · obtain ⟨_, hd⟩ := hreps
      rw [hh] at hd
      cases hd
    · simp
  rcases addrs.eq_nil_or_concat with h1 | ⟨l2, b, h2⟩
  · exact absurd h1 hne
  · exact ⟨l2, b, by simpa [List.concat_eq_append] using h2⟩

theorem pushBack_inv (l : HeapList α) (v : α) (h : l.inv) :
    ∃ l2 : HeapList α, l.pushBack v = some l2 ∧ l2.inv ∧ l2.size_ = l.size_ + 1 := by
  obtain ⟨addrs, hreps, hsize⟩ := h
  rcases hh : l.head_ with _ | h0
  · have haddrs : addrs = [] := by
      rcases addrs with _ | ⟨a, rest⟩
      · rfl
      · obtain ⟨hc, _⟩ := hreps
        rw [hh] at hc
        cases hc
    subst haddrs
    refine ⟨⟨l.mem ++ [some (⟨none, none, v⟩ : Node α)], some l.mem.length, some l.mem.length,
      l.size_ + 1⟩, ?_, ?_, rfl⟩
    · unfold HeapList.pushBack
      rw [hh]
    · refine ⟨[l.mem.length],
        ⟨rfl, (⟨none, none, v⟩ : Node α), List.getElem?_concat_length _ _, rfl, rfl, rfl⟩, ?_⟩
      simp only [List.length_cons, List.length_nil] at hsize ⊢
      simp at hsize
      omega
  · obtain ⟨front, t, haddr⟩ := addrs_of_some_head l addrs hreps h0 hh
    subst haddr
    rw [repsSeg_append_iff] at hreps
    obtain ⟨pm, cm, hfront, hcm, nt, hnt, hntprev, hq, hd⟩ := hreps
    subst hcm
    have ht_lt : t < l.mem.length := (List.getElem?_eq_some.mp hnt).1
    have hnext : nt.next = none := hd.symm
    have hread : HeapList.readNode l.mem t = some nt := by
      unfold HeapList.readNode
      rw [hnt]
    have ht_not_front : ∀ a ∈ front, a ≠ t := by
      intro a ha hEq
      subst hEq
      obtain ⟨n2, hn2, hd2⟩ := repsSeg_next_mem l.mem front none l.head_ pm (some a) a hfront ha
      rw [hnt] at hn2
      injection hn2 with hn2a
      injection hn2a with hn2b
      rcases hd2 with hd2 | ⟨w, _, hd2⟩
      · rw [← hn2b, hnext] at hd2
        cases hd2
      · rw [← hn2b, hnext] at hd2
        cases hd2
    refine ⟨⟨((l.mem ++ [some (⟨none, none, v⟩ : Node α)]).set t
        (some { nt with next := some l.mem.length })).set l.mem.length
        (some (⟨none, some t, v⟩ : Node α)), l.head_, some l.mem.length, l.size_ + 1⟩,
        ?_, ?_, rfl⟩
    · simp only [HeapList.pushBack, hh, hq, hread]
    · refine ⟨(front ++ [t]) ++ [l.mem.length], ?_, ?_⟩
      · rw [repsSeg_append_iff]
        refine ⟨some t, some l.mem.length, ?_, ?_⟩
        · rw [repsSeg_append_iff]
          refine ⟨pm, some t, ?_, ?_⟩
          · apply repsSeg_set_frame
            · intro a ha
              have := repsSeg_mem_lt l.mem front none l.head_ pm (some t) a hfront ha
              omega
            apply repsSeg_set_frame
            · exact ht_not_front
            exact repsSeg_grow l.mem [some (⟨none, none, v⟩ : Node α)] front none l.head_ pm
              (some t) hfront
          · refine ⟨rfl, { nt with next := some l.mem.length }, ?_, hntprev, rfl, rfl⟩
            rw [List.getElem?_set_ne (show l.mem.length ≠ t by omega)]
            rw [getElem?_set_at _ _ _ (show t < (l.mem ++ [some (⟨none, none, v⟩ : Node α)]).length
              by simp; omega)]
        · refine ⟨rfl, (⟨none, some t, v⟩ : Node α), ?_, rfl, rfl, rfl⟩
          rw [getElem?_set_at _ _ _ (show l.mem.length <
            ((l.mem ++ [some (⟨none, none, v⟩ : Node α)]).set t
              (some { nt with next := some l.mem.length })).length by simp)]
      · simp only [List.length_append, List.length_cons, List.length_nil] at hsize ⊢
        push_cast at hsize ⊢
        omega

theorem pushFront_inv (l : HeapList α) (v : α) (h : l.inv) :
    ∃ l2 : HeapList α, l.pushFront v = some l2 ∧ l2.inv ∧ l2.size_ = l.size_ + 1 := by
  obtain ⟨addrs, hreps, hsize⟩ := h
  rcases hh : l.head_ with _ | h0
  · have haddrs : addrs = [] := by
      rcases addrs with _ | ⟨a, rest⟩
      · rfl
      · obtain ⟨hc, _⟩ := hreps
        rw [hh] at hc
        cases hc
    subst haddrs
    refine ⟨⟨l.mem ++ [some (⟨none, none, v⟩ : Node α)], some l.mem.length, some l.mem.length,
      l.size_ + 1⟩, ?_, ?_, rfl⟩
    · unfold HeapList.pushFront
      rw [hh]
    · refine ⟨[l.mem.length],
        ⟨rfl, (⟨none, none, v⟩ : Node α), List.getElem?_concat_length _ _, rfl, rfl, rfl⟩, ?_⟩
      simp only [List.length_cons, List.length_nil] at hsize ⊢
      simp at hsize
      omega
  · obtain ⟨rest, haddr⟩ : ∃ rest, addrs = h0 :: rest := by
      rcases addrs with _ | ⟨a, rest⟩
      · obtain ⟨_, hd⟩ := hreps
        rw [hh] at hd
        cases hd
      · obtain ⟨hc, _⟩ := hreps
        rw [hh] at hc
        injection hc with hc2
        exact ⟨rest, by rw [hc2]⟩
    subst haddr
    obtain ⟨hc, nh, hnh, hnhprev, hrest⟩ := hreps
    have hh0_lt : h0 < l.mem.length := (List.getElem?_eq_some.mp hnh).1
    have hread : HeapList.readNode l.mem h0 = some nh := by
      unfold HeapList.readNode
      rw [hnh]
    have hh0_not_rest : ∀ a ∈ rest, a ≠ h0 := by
      intro a ha hEq
      subst hEq
      obtain ⟨n2, hn2, hd2⟩ := repsSeg_prev_mem l.mem rest (some a) nh.next l.tail_ none a hrest ha
      rw [hnh] at hn2
      injection hn2 with hn2a
      injection hn2a with hn2b
      rcases hd2 with hd2 | ⟨w, _, hd2⟩
      · rw [← hn2b, hnhprev] at hd2
        cases hd2
      · rw [← hn2b, hnhprev] at hd2
        cases hd2
    refine ⟨⟨((l.mem ++ [some (⟨none, none, v⟩ : Node α)]).set h0
        (some { nh with prev := some l.mem.length })).set l.mem.length
        (some (⟨some h0, none, v⟩ : Node α)), some l.mem.length, l.tail_, l.size_ + 1⟩,
        ?_, ?_, rfl⟩
    · simp only [HeapList.pushFront, hh, hread]
    · refine ⟨l.mem.length :: h0 :: rest, ?_, ?_⟩
      · refine ⟨rfl, (⟨some h0, none, v⟩ : Node α), ?_, rfl, ?_⟩
        · rw [getElem?_set_at _ _ _ (show l.mem.length <
            ((l.mem ++ [some (⟨none, none, v⟩ : Node α)]).set h0
              (some { nh with prev := some l.mem.length })).length by simp)]
        · refine ⟨rfl, { nh with prev := some l.mem.length }, ?_, rfl, ?_⟩
          · rw [List.getElem?_set_ne (show l.mem.length ≠ h0 by omega)]
            rw [getElem?_set_at _ _ _ (show h0 <
              (l.mem ++ [some (⟨none, none, v⟩ : Node α)]).length by simp; omega)]
          · show repsSeg _ (some h0) nh.next rest l.tail_ none
            apply repsSeg_set_frame
            · intro a ha
              have := repsSeg_mem_lt l.mem rest (some h0) nh.next l.tail_ none a hrest ha
              omega
            apply repsSeg_set_frame
            · exact hh0_not_rest
            exact repsSeg_grow l.mem [some (⟨none, none, v⟩ : Node α)] rest (some h0) nh.next
              l.tail_ none hrest
      · simp only [List.length_cons] at hsize ⊢
        push_cast at hsize ⊢
        omega

theorem popFront_inv (l : HeapList α) (h : l.inv) :
    ∃ l2 : HeapList α, l.popFront = some l2 ∧ l2.inv := by
  obtain ⟨addrs, hreps, hsize⟩ := h
  rcases hh : l.head_ with _ | h0
  · refine ⟨l, ?_, ⟨addrs, hreps, hsize⟩⟩
    unfold HeapList.popFront
    rw [hh]
  · obtain ⟨rest, haddr⟩ : ∃ rest, addrs = h0 :: rest := by
      rcases addrs with _ | ⟨a, rest⟩
      · obtain ⟨_, hd⟩ := hreps
        rw [hh] at hd
        cases hd
      · obtain ⟨hc, _⟩ := hreps
        rw [hh] at hc
        injection hc with hc2
        exact ⟨rest, by rw [hc2]⟩
    subst haddr
    obtain ⟨hc, nh, hnh, hnhprev, hrest⟩ := hreps
    have hh0_lt : h0 < l.mem.length := (List.getElem?_eq_some.mp hnh).1
    have hread : HeapList.readNode l.mem h0 = some nh := by
      unfold HeapList.readNode
      rw [hnh]
    have hh0_not_rest : ∀ a ∈ rest, a ≠ h0 := by
      intro a ha hEq
      subst hEq
      obtain ⟨n2, hn2, hd2⟩ := repsSeg_prev_mem l.mem rest (some a) nh.next l.tail_ none a hrest ha
      rw [hnh] at hn2
      injection hn2 with hn2a
      injection hn2a with hn2b
      rcases hd2 with hd2 | ⟨w, _, hd2⟩
      · rw [← hn2b, hnhprev] at hd2
        cases hd2
      · rw [← hn2b, hnhprev] at hd2
        cases hd2
    rcases hnx : nh.next with _ | b
    · have hrest_nil : rest = [] := by
        rcases rest with _ | ⟨b2, rest2⟩
        · rfl
        · obtain ⟨hc2, _⟩ := hrest
          rw [hnx] at hc2
          cases hc2
      subst hrest_nil
      have hs1 : l.size_ = 1 := by simpa using hsize
      refine ⟨⟨l.mem.set h0 none, none, none, l.size_ - 1⟩, ?_, ?_⟩
      · simp only [HeapList.popFront, hh, hread, hnx]
        rw [if_neg (by omega)]
      · exact ⟨[], ⟨rfl, rfl⟩, by rw [hs1]; simp⟩
    · obtain ⟨rest2, hr2⟩ : ∃ rest2, rest = b :: rest2 := by
        rcases rest with _ | ⟨b2, rest2⟩
        · obtain ⟨_, hd⟩ := hrest
          rw [hnx] at hd
          cases hd
        · obtain ⟨hc2, _⟩ := hrest
          rw [hnx] at hc2
          injection hc2 with hc3
          exact ⟨rest2, by rw [hc3]⟩
      subst hr2
      obtain ⟨hcb, nb, hnb, hnbprev, hrest2⟩ := hrest
      have hb_lt : b < l.mem.length := (List.getElem?_eq_some.mp hnb).1
      have hread_b : HeapList.readNode l.mem b = some nb := by
        unfold HeapList.readNode
        rw [hnb]
      have hb_not_rest2 : ∀ a ∈ rest2, a ≠ b := by
        intro a ha hEq
        subst hEq
        obtain ⟨n2, hn2, hd2⟩ := repsSeg_prev_mem l.mem rest2 (some a) nb.next l.tail_ none
          a hrest2 ha
        rw [hnb] at hn2
        injection hn2 with hn2a
        injection hn2a with hn2b
        rcases hd2 with hd2 | ⟨w, hw, hd2⟩
        · rw [← hn2b, hnbprev] at hd2
          injection hd2 with hd3
          exact hh0_not_rest a (by simp) hd3.symm
        · rw [← hn2b, hnbprev] at hd2
          injection hd2 with hd3
          rw [← hd3] at hw
          exact hh0_not_rest h0 (by simp [hw]) rfl
      refine ⟨⟨(l.mem.set b (some { nb with prev := none })).set h0 none, some b, l.tail_,
        l.size_ - 1⟩, ?_, ?_⟩
      · simp only [HeapList.popFront, hh, hread, hnx, hread_b]
      · refine ⟨b :: rest2, ⟨rfl, { nb with prev := none }, ?_, rfl, ?_⟩, ?_⟩
        · rw [List.getElem?_set_ne (show h0 ≠ b from fun he => hh0_not_rest b (by simp) he.symm)]
          rw [getElem?_set_at _ _ _ hb_lt]
        · show repsSeg _ (some b) nb.next rest2 l.tail_ none
          apply repsSeg_set_frame
          · intro a ha
            exact hh0_not_rest a (by simp [ha])
          apply repsSeg_set_frame
          · exact hb_not_rest2
          exact hrest2
        · simp only [List.length_cons] at hsize ⊢
          push_cast at hsize ⊢
          omega

theorem popBack_inv (l : HeapList α) (h : l.inv) :
    ∃ l2 : HeapList α, l.popBack = some l2 ∧ l2.inv ∧
      ((l.head_ = none ∧ l2 = l) ∨ (l.head_ ≠ none ∧ l2.size_ = l.size_ - 1)) := by
  obtain ⟨addrs, hreps, hsize⟩ := h
  rcases hh : l.head_ with _ | h0
  · refine ⟨l, ?_, ⟨addrs, hreps, hsize⟩, Or.inl ⟨rfl, rfl⟩⟩
    unfold HeapList.popBack
    rw [hh]
  · obtain ⟨front, t, haddr⟩ := addrs_of_some_head l addrs hreps h0 hh
    subst haddr
    rw [repsSeg_append_iff] at hreps
    obtain ⟨pm, cm, hfront, hcm, nt, hnt, hntprev, hq, hd⟩ := hreps
    subst hcm
    have ht_lt : t < l.mem.length := (List.getElem?_eq_some.mp hnt).1
    have hnext : nt.next = none := hd.symm
    have hread_t : HeapList.readNode l.mem t = some nt := by
      unfold HeapList.readNode
      rw [hnt]
    have ht_not_front : ∀ a ∈ front, a ≠ t := by
      intro a ha hEq
      subst hEq
      obtain ⟨n2, hn2, hd2⟩ := repsSeg_next_mem l.mem front none l.head_ pm (some a) a hfront ha
      rw [hnt] at hn2
      injection hn2 with hn2a
      injection hn2a with hn2b
      rcases hd2 with hd2 | ⟨w, _, hd2⟩
      · rw [← hn2b, hnext] at hd2
        cases hd2
      · rw [← hn2b, hnext] at hd2
        cases hd2
    rcases hpv : nt.prev with _ | pt
    · have hfront_nil : front = [] := by
        rcases front.eq_nil_or_concat with h1 | ⟨front2, z, h2⟩
        · exact h1
        · rw [List.concat_eq_append] at h2
          subst h2
          rw [repsSeg_append_iff] at hfront
          obtain ⟨pm2, cm2, _, hcm2, nz, hnz, hnzprev, hq2, hd2⟩ := hfront
          rw [hpv] at hntprev
          rw [← hntprev] at hq2
          cases hq2
      subst hfront_nil
      obtain ⟨hpm_none, hcm_head⟩ := hfront
      have hs1 : l.size_ = 1 := by simpa using hsize
      refine ⟨⟨l.mem.set t none, none, none, l.size_ - 1⟩, ?_, ?_, ?_⟩
      · simp only [HeapList.popBack, hh, hq, hread_t, hpv]
        rw [if_neg (by omega)]
      · exact ⟨[], ⟨rfl, rfl⟩, by rw [hs1]; simp⟩
      · exact Or.inr ⟨by simp, rfl⟩
    · have hpm : pm = some pt := by
        rw [← hntprev, hpv]
      rcases front.eq_nil_or_concat with h1 | ⟨front2, z, h2⟩
      · subst h1
        obtain ⟨hpm_none, _⟩ := hfront
        rw [hpm_none] at hpm
        cases hpm
      · rw [List.concat_eq_append] at h2
        subst h2
        rw [repsSeg_append_iff] at hfront
        obtain ⟨pm2, cm2, hfront2, hcm2, nz, hnz, hnzprev, hq2, hd2⟩ := hfront
        subst hcm2
        have hz_eq : z = pt := by
          rw [hpm] at hq2
          injection hq2 with hq3
          exact hq3.symm
        subst hz_eq
        have hpt_lt : z < l.mem.length := (List.getElem?_eq_some.mp hnz).1
        have hznext : nz.next = some t := hd2.symm
        have hread_pt : HeapList.readNode l.mem z = some nz := by
          unfold HeapList.readNode
          rw [hnz]
        have ht_ne_pt : t ≠ z := by
          intro hEq
          rw [← hEq] at hnz
          rw [hnt] at hnz
          injection hnz with ha
          injection ha with hb
          rw [← hb, hnext] at hznext
          cases hznext
        have hpt_not_front2 : ∀ a ∈ front2, a ≠ z := by
          intro a ha hEq
          subst hEq
          obtain ⟨n2, hn2, hd3⟩ := repsSeg_next_mem l.mem front2 none l.head_ pm2 (some a)
            a hfront2 ha
          rw [hnz] at hn2
          injection hn2 with hn2a
          injection hn2a with hn2b
          rcases hd3 with hd3 | ⟨w, hw, hd3⟩
          · rw [← hn2b, hznext] at hd3
            injection hd3 with hd4
            exact ht_ne_pt hd4
          · rw [← hn2b, hznext] at hd3
            injection hd3 with hd4
            rw [← hd4] at hw
            exact ht_not_front t (by simp [hw]) rfl
        have ht_not_front2 : ∀ a ∈ front2, a ≠ t := by
          intro a ha
          exact ht_not_front a (by simp [ha])
        refine ⟨⟨(l.mem.set z (some { nz with next := none })).set t none, l.head_, some z,
          l.size_ - 1⟩, ?_, ?_, ?_⟩
        · simp only [HeapList.popBack, hh, hq, hread_t, hpv, hread_pt]
        · refine ⟨front2 ++ [z], ?_, ?_⟩
          · rw [repsSeg_append_iff]
            refine ⟨pm2, some z, ?_, ?_⟩
            · apply repsSeg_set_frame
              · exact ht_not_front2
              apply repsSeg_set_frame
              · exact hpt_not_front2
              exact hfront2
            · refine ⟨rfl, { nz with next := none }, ?_, hnzprev, rfl, rfl⟩
              rw [List.getElem?_set_ne ht_ne_pt]
              rw [getElem?_set_at _ _ _ hpt_lt]
          · simp only [List.length_append, List.length_cons, List.length_nil] at hsize ⊢
            push_cast at hsize ⊢
            omega
        · exact Or.inr ⟨by simp, rfl⟩

theorem inv_head_none_size (l : HeapList α) (h : l.inv) (hh : l.head_ = none) :
    l.size_ = 0 := by
  obtain ⟨addrs, hreps, hsize⟩ := h
  have haddrs : addrs = [] := by
    rcases addrs with _ | ⟨a, rest⟩
    · rfl
    · obtain ⟨hc, _⟩ := hreps
      rw [hh] at hc
      cases hc
  subst haddrs
  simpa using hsize

theorem inv_head_some_size (l : HeapList α) (h : l.inv) (h0 : Nat) (hh : l.head_ = some h0) :
    1 ≤ l.size_ := by
  obtain ⟨addrs, hreps, hsize⟩ := h
  obtain ⟨front, t, haddr⟩ := addrs_of_some_head l addrs hreps h0 hh
  subst haddr
  rw [hsize]
  simp

theorem clearLoopH_inv : ∀ (fuel : Nat) (l : HeapList α), l.inv → l.size_.toNat < fuel →
    ∃ l2 : HeapList α, HeapList.clearLoopH fuel l = some l2 ∧ l2.inv ∧ l2.head_ = none ∧
      l2.size_ = 0 := by
  intro fuel
  induction fuel with
  | zero => intro l _ hfuel; omega
  | succ fuel ih =>
    intro l h hfuel
    rcases hh : l.head_ with _ | h0
    · refine ⟨l, ?_, h, hh, inv_head_none_size l h hh⟩
      simp only [HeapList.clearLoopH, hh]
    · obtain ⟨l2, hpb, hinv2, hdisj⟩ := popBack_inv l h
      have hpos : 1 ≤ l.size_ := inv_head_some_size l h h0 hh
      rcases hdisj with ⟨hnone, _⟩ | ⟨_, hsz⟩
      · rw [hh] at hnone
        cases hnone
      · obtain ⟨l3, hl3, hinv3, hh3, hs3⟩ := ih l2 hinv2 (by omega)
        refine ⟨l3, ?_, hinv3, hh3, hs3⟩
        simp only [HeapList.clearLoopH, hh, hpb]
        exact hl3

theorem clearH_inv (l : HeapList α) (h : l.inv) :
    ∃ l2 : HeapList α, l.clearH = some l2 ∧ l2.inv := by
  obtain ⟨l2, hloop, hinv2, _, hs2⟩ := clearLoopH_inv (l.size_.toNat + 1) l h (by omega)
  refine ⟨l2, ?_, hinv2⟩
  unfold HeapList.clearH
  rw [hloop]
  show (if l2.size_ ≠ 0 then none else some l2) = some l2
  rw [if_neg (by omega)]

theorem hEmpty_inv : (HeapList.hEmpty : HeapList α).inv :=
  ⟨[], ⟨rfl, rfl⟩, rfl⟩

theorem repsSeg_nodup (mem : List (Option (Node α))) :
    ∀ (m : Nat) (addrs : List Nat) (p c q d : Option Nat), addrs.length = m →
      repsSeg mem p c addrs q d → (∀ a ∈ addrs, d ≠ some a) → addrs.Nodup := by
  intro m
  induction m using Nat.strong_induction_on with
  | _ m ih =>
    intro addrs p c q d hm hreps hd
    rcases addrs.eq_nil_or_concat with h1 | ⟨front, t, h2⟩
    · subst h1
      exact List.nodup_nil
    · rw [List.concat_eq_append] at h2
      subst h2
      rw [repsSeg_append_iff] at hreps
      obtain ⟨pm, cm, hfront, hcm, nt, hnt, hntprev, hq, hdd⟩ := hreps
      subst hcm
      have ht_not_front : t ∉ front := by
        intro ht
        obtain ⟨n2, hn2, hd2⟩ := repsSeg_next_mem mem front p c pm (some t) t hfront ht
        rw [hnt] at hn2
        injection hn2 with a1
        injection a1 with a2
        rcases hd2 with hd2 | ⟨w, hw, hd2⟩
        · rw [← a2] at hd2
          exact hd t (by simp) (by rw [hdd, hd2])
        · rw [← a2] at hd2
          exact hd w (by simp [hw]) (by rw [hdd, hd2])
      have hfront_nodup : front.Nodup := by
        refine ih front.length ?_ front p c pm (some t) rfl hfront ?_
        · rw [List.length_append, List.length_cons, List.length_nil] at hm
          omega
        · intro a ha hEq
          injection hEq with hEq2
          exact ht_not_front (hEq2 ▸ ha)
      rw [List.nodup_append]
      refine ⟨hfront_nodup, List.nodup_singleton t, ?_⟩
      intro a ha hb
      rw [List.mem_singleton] at hb
      subst hb
      exact ht_not_front ha

theorem chain_nodup (mem : List (Option (Node α))) (addrs : List Nat)
    (p c q : Option Nat) (h : repsSeg mem p c addrs q none) : addrs.Nodup :=
  repsSeg_nodup mem addrs.length addrs p c q none rfl h (fun a _ hEq => by cases hEq)

theorem insertOrdLoop_inv (le : α → α → Bool) (v : α) :
    ∀ (fuel : Nat) (l : HeapList α) (prevA curA : Option Nat) (A B : List Nat),
      repsSeg l.mem none l.head_ A prevA curA →
      repsSeg l.mem prevA curA B l.tail_ none →
      l.size_ = ((A.length + B.length : Nat) : Int) →
      B.length < fuel →
      ∃ l2 : HeapList α, HeapList.insertOrdLoop le v fuel l prevA curA = some l2 ∧ l2.inv := by
  intro fuel
  induction fuel with
  | zero =>
    intro l prevA curA A B _ _ _ hf
    omega
  | succ fuel ih =>
    intro l prevA curA A B hA hB hsize hf
    rcases curA with _ | c
    · have hB_nil : B = [] := by
        rcases B with _ | ⟨b, B2⟩
        · rfl
        · obtain ⟨hc, _⟩ := hB
          cases hc
      subst hB_nil
      obtain ⟨htail, _⟩ := hB
      rcases prevA with _ | p
      · have hA_nil : A = [] := by
          rcases A.eq_nil_or_concat with h1 | ⟨A2, z, h2⟩
          · exact h1
          · rw [List.concat_eq_append] at h2
            subst h2
            rw [repsSeg_append_iff] at hA
            obtain ⟨pm2, cm2, _, _, nz, _, _, hq2, _⟩ := hA
            cases hq2
        subst hA_nil
        refine ⟨⟨l.mem ++ [some (⟨none, none, v⟩ : Node α)], some l.mem.length,
          some l.mem.length, l.size_ + 1⟩, ?_, ?_⟩
        · simp only [HeapList.insertOrdLoop]
        · refine ⟨[l.mem.length],
            ⟨rfl, (⟨none, none, v⟩ : Node α), List.getElem?_concat_length _ _,
              rfl, rfl, rfl⟩, ?_⟩
          simp only [List.length_nil] at hsize
          simp at hsize
          simp only [List.length_cons, List.length_nil]
          omega
      · have hA_ne : A ≠ [] := by
          rcases A with _ | _
          · obtain ⟨hpm, _⟩ := hA
            cases hpm
          · simp
        obtain ⟨A2, z, h2⟩ : ∃ A2 z, A = A2 ++ [z] := by
          rcases A.eq_nil_or_concat with h1 | ⟨A2, z, h2⟩
          · exact absurd h1 hA_ne
          · exact ⟨A2, z, by simpa [List.concat_eq_append] using h2⟩
        subst h2
        rw [repsSeg_append_iff] at hA
        obtain ⟨pm2, cm2, hA2, hcm2, np, hnp, hnpprev, hq2, hd2⟩ := hA
        subst hcm2
        injection hq2 with hq3
        subst hq3
        have hnpnext : np.next = none := hd2.symm
        have hp_lt : p < l.mem.length := (List.getElem?_eq_some.mp hnp).1
        have hread_p : HeapList.readNode l.mem p = some np := by
          unfold HeapList.readNode
          rw [hnp]
        have hp_not_A2 : ∀ a ∈ A2, a ≠ p := by
          intro a ha hEq
          subst hEq
          obtain ⟨n2, hn2, hd3⟩ := repsSeg_next_mem l.mem A2 none l.head_ pm2 (some a)
            a hA2 ha
          rw [hnp] at hn2
          injection hn2 with a1
          injection a1 with a2
          rcases hd3 with hd3 | ⟨w, _, hd3⟩
          · rw [← a2, hnpnext] at hd3
            cases hd3
          · rw [← a2, hnpnext] at hd3
            cases hd3
        refine ⟨⟨(l.mem ++ [some (⟨none, some p, v⟩ : Node α)]).set p
          (some { np with next := some l.mem.length }), l.head_, some l.mem.length,
          l.size_ + 1⟩, ?_, ?_⟩
        · simp only [HeapList.insertOrdLoop, hread_p]
        · refine ⟨(A2 ++ [p]) ++ [l.mem.length], ?_, ?_⟩
          · rw [repsSeg_append_iff]
            refine ⟨some p, some l.mem.length, ?_, ?_⟩
            · rw [repsSeg_append_iff]
              refine ⟨pm2, some p, ?_, ?_⟩
              · apply repsSeg_set_frame
                · exact hp_not_A2
                exact repsSeg_grow l.mem [some (⟨none, some p, v⟩ : Node α)] A2 none
                  l.head_ pm2 (some p) hA2
              · refine ⟨rfl, { np with next := some l.mem.length }, ?_, hnpprev, rfl, rfl⟩
                rw [getElem?_set_at _ _ _ (show p <
                  (l.mem ++ [some (⟨none, some p, v⟩ : Node α)]).length by simp; omega)]
            · refine ⟨rfl, (⟨none, some p, v⟩ : Node α), ?_, rfl, rfl, rfl⟩
              rw [List.getElem?_set_ne (show p ≠ l.mem.length by omega)]
              exact List.getElem?_concat_length _ _
          · simp only [List.length_append, List.length_cons, List.length_nil] at hsize ⊢
            push_cast at hsize ⊢
            omega
    · obtain ⟨B2, hB2eq⟩ : ∃ B2, B = c :: B2 := by
        rcases B with _ | ⟨b, B2⟩
        · obtain ⟨_, hc⟩ := hB
          cases hc
        · obtain ⟨hc, _⟩ := hB
          injection hc with hc2
          exact ⟨B2, by rw [hc2]⟩
      subst hB2eq
      obtain ⟨_, nc, hnc, hncprev, hB2⟩ := hB
      have hc_lt : c < l.mem.length := (List.getElem?_eq_some.mp hnc).1
      have hread_c : HeapList.readNode l.mem c = some nc := by
        unfold HeapList.readNode
        rw [hnc]
      by_cases hle : le nc.data v
      · have hA2 : repsSeg l.mem none l.head_ (A ++ [c]) (some c) nc.next := by
          rw [repsSeg_append_iff]
          exact ⟨prevA, some c, hA, rfl, nc, hnc, hncprev, rfl, rfl⟩
        obtain ⟨l2, hl2, hinv⟩ := ih l (some c) nc.next (A ++ [c]) B2 hA2 hB2
          (by
            simp only [List.length_append, List.length_cons, List.length_nil] at hsize ⊢
            push_cast at hsize ⊢
            omega)
          (by
            simp only [List.length_cons] at hf
            omega)
        refine ⟨l2, ?_, hinv⟩
        simp only [HeapList.insertOrdLoop, hread_c]
        rw [if_pos hle]
        exact hl2
      · rcases prevA with _ | p
        · have hA_nil : A = [] := by
            rcases A.eq_nil_or_concat with h1 | ⟨A2, z, h2⟩
            · exact h1
            · rw [List.concat_eq_append] at h2
              subst h2
              rw [repsSeg_append_iff] at hA
              obtain ⟨pm2, cm2, _, _, nz, _, _, hq2, _⟩ := hA
              cases hq2
          subst hA_nil
          have hc_not_B2 : ∀ a ∈ B2, a ≠ c := by
            intro a ha hEq
            subst hEq
            obtain ⟨n2, hn2, hd2⟩ := repsSeg_prev_mem l.mem B2 (some a) nc.next
              l.tail_ none a hB2 ha
            rw [hnc] at hn2
            injection hn2 with a1
            injection a1 with a2
            rcases hd2 with hd2 | ⟨w, _, hd2⟩
            · rw [← a2, hncprev] at hd2
              cases hd2
            · rw [← a2, hncprev] at hd2
              cases hd2
          refine ⟨⟨(l.mem ++ [some (⟨some c, none, v⟩ : Node α)]).set c
            (some { nc with prev := some l.mem.length }), some l.mem.length, l.tail_,
            l.size_ + 1⟩, ?_, ?_⟩
          · simp only [HeapList.insertOrdLoop, hread_c]
            rw [if_neg hle]
          · refine ⟨l.mem.length :: c :: B2, ?_, ?_⟩
            · refine ⟨rfl, (⟨some c, none, v⟩ : Node α), ?_, rfl, ?_⟩
              · rw [List.getElem?_set_ne (show c ≠ l.mem.length by omega)]
                exact List.getElem?_concat_length _ _
              · refine ⟨rfl, { nc with prev := some l.mem.length }, ?_, rfl, ?_⟩
                · rw [getElem?_set_at _ _ _ (show c <
                    (l.mem ++ [some (⟨some c, none, v⟩ : Node α)]).length by simp; omega)]
                · show repsSeg _ (some c) nc.next B2 l.tail_ none
                  apply repsSeg_set_frame
                  · exact hc_not_B2
                  exact repsSeg_grow l.mem [some (⟨some c, none, v⟩ : Node α)] B2 (some c)
                    nc.next l.tail_ none hB2
            · simp only [List.length_nil, List.length_cons] at hsize ⊢
              push_cast at hsize ⊢
              omega
        · have hfull : repsSeg l.mem none l.head_ (A ++ c :: B2) l.tail_ none := by
            rw [repsSeg_append_iff]
            exact ⟨some p, some c, hA, rfl, nc, hnc, hncprev, hB2⟩
          have hnodup := chain_nodup l.mem (A ++ c :: B2) none l.head_ l.tail_ hfull
          have hA_ne : A ≠ [] := by
            rcases A with _ | _
            · obtain ⟨hpm, _⟩ := hA
              cases hpm
            · simp
          obtain ⟨A2, z, h2⟩ : ∃ A2 z, A = A2 ++ [z] := by
            rcases A.eq_nil_or_concat with h1 | ⟨A2, z, h2⟩
            · exact absurd h1 hA_ne
            · exact ⟨A2, z, by simpa [List.concat_eq_append] using h2⟩
          subst h2
          rw [repsSeg_append_iff] at hA
          obtain ⟨pm2, cm2, hA2, hcm2, np, hnp, hnpprev, hq2, hd2⟩ := hA
          subst hcm2
          injection hq2 with hq3
          subst hq3
          have hnpnext : np.next = some c := hd2.symm
          have hp_lt : p < l.mem.length := (List.getElem?_eq_some.mp hnp).1
          have hread_p : HeapList.readNode l.mem p = some np := by
            unfold HeapList.readNode
            rw [hnp]
          rw [List.append_assoc, List.singleton_append, List.nodup_append] at hnodup
          obtain ⟨hA2nd, hpcB2nd, hdisj⟩ := hnodup
          rw [List.nodup_cons] at hpcB2nd
          have hp_notin_cB2 : p ∉ c :: B2 := hpcB2nd.1
          have hpc : p ≠ c := by
            intro hEq
            exact hp_notin_cB2 (by rw [hEq]; exact List.mem_cons_self c B2)
          have hp_not_B2 : ∀ a ∈ B2, a ≠ p := by
            intro a ha hEq
            subst hEq
            exact hp_notin_cB2 (List.mem_cons_of_mem c ha)
          have hp_not_A2 : ∀ a ∈ A2, a ≠ p := by
            intro a ha hEq
            subst hEq
            exact (hdisj ha) (List.mem_cons_self a (c :: B2))
          have hc_not_B2 : ∀ a ∈ B2, a ≠ c := by
            intro a ha hEq
            subst hEq
            exact (List.nodup_cons.mp hpcB2nd.2).1 ha
          have hc_not_A2 : ∀ a ∈ A2, a ≠ c := by
            intro a ha hEq
            subst hEq
            exact (hdisj ha) (List.mem_cons_of_mem p (List.mem_cons_self a B2))
          refine ⟨⟨((l.mem ++ [some (⟨some c, some p, v⟩ : Node α)]).set c
            (some { nc with prev := some l.mem.length })).set p
            (some { np with next := some l.mem.length }), l.head_, l.tail_,
            l.size_ + 1⟩, ?_, ?_⟩
          · simp only [HeapList.insertOrdLoop, hread_c, hread_p]
            rw [if_neg hle]
          · refine ⟨(A2 ++ [p]) ++ l.mem.length :: c :: B2, ?_, ?_⟩
            · rw [repsSeg_append_iff]
              refine ⟨some p, some l.mem.length, ?_, ?_⟩
              · rw [repsSeg_append_iff]
                refine ⟨pm2, some p, ?_, ?_⟩
                · apply repsSeg_set_frame
                  · exact hp_not_A2
                  apply repsSeg_set_frame
                  · exact hc_not_A2
                  exact repsSeg_grow l.mem [some (⟨some c, some p, v⟩ : Node α)] A2 none
                    l.head_ pm2 (some p) hA2
                · refine ⟨rfl, { np with next := some l.mem.length }, ?_, hnpprev, rfl, rfl⟩
                  rw [getElem?_set_at _ _ _ (show p <
                    ((l.mem ++ [some (⟨some c, some p, v⟩ : Node α)]).set c
                      (some { nc with prev := some l.mem.length })).length by simp; omega)]
              · refine ⟨rfl, (⟨some c, some p, v⟩ : Node α), ?_, rfl, ?_⟩
                · rw [List.getElem?_set_ne (show p ≠ l.mem.length by omega)]
                  rw [List.getElem?_set_ne (show c ≠ l.mem.length by omega)]
                  exact List.getElem?_concat_length _ _
                · refine ⟨rfl, { nc with prev := some l.mem.length }, ?_, rfl, ?_⟩
                  · rw [List.getElem?_set_ne hpc]
                    rw [getElem?_set_at _ _ _ (show c <
                      (l.mem ++ [some (⟨some c, some p, v⟩ : Node α)]).length by simp; omega)]
                  · show repsSeg _ (some c) nc.next B2 l.tail_ none
                    apply repsSeg_set_frame
                    · exact hp_not_B2
                    apply repsSeg_set_frame
                    · exact hc_not_B2
                    exact repsSeg_grow l.mem [some (⟨some c, some p, v⟩ : Node α)] B2 (some c)
                      nc.next l.tail_ none hB2
            · simp only [List.length_append, List.length_cons, List.length_nil] at hsize ⊢
              push_cast at hsize ⊢
              omega

theorem insertOrdered_inv (le : α → α → Bool) (l : HeapList α) (v : α) (h : l.inv) :
    ∃ l2 : HeapList α, HeapList.insertOrdered le l v = some l2 ∧ l2.inv := by
  obtain ⟨addrs, hreps, hsize⟩ := h
  refine insertOrdLoop_inv le v (l.size_.toNat + 1) l none l.head_ [] addrs ⟨rfl, rfl⟩
    hreps ?_ ?_
  · simpa using hsize
  · omega

theorem applyOp_inv (l : HeapList α) (op : ListOp α) (h : l.inv) :
    ∃ l2 : HeapList α, applyOp l op = some l2 ∧ l2.inv := by
  rcases op with v | v | _ | _ | _ | ⟨le2, v2⟩
  · obtain ⟨l2, h1, h2, _⟩ := pushFront_inv l v h
    exact ⟨l2, h1, h2⟩
  · obtain ⟨l2, h1, h2, _⟩ := pushBack_inv l v h
    exact ⟨l2, h1, h2⟩
  · exact popFront_inv l h
  · obtain ⟨l2, h1, h2, _⟩ := popBack_inv l h
    exact ⟨l2, h1, h2⟩
  · exact clearH_inv l h
  · exact insertOrdered_inv le2 l v2 h

theorem foldlM_applyOp_inv : ∀ (ops : List (ListOp α)) (l : HeapList α), l.inv →
    ∃ s : HeapList α, List.foldlM applyOp l ops = some s ∧ s.inv := by
  intro ops
  induction ops with
  | nil => intro l h; exact ⟨l, rfl, h⟩
  | cons op ops ih =>
    intro l h
    obtain ⟨l2, hop, hinv2⟩ := applyOp_inv l op h
    obtain ⟨s, hs, hsinv⟩ := ih l2 hinv2
    refine ⟨s, ?_, hsinv⟩
    rw [List.foldlM_cons, hop]
    exact hs

theorem runOps_inv (ops : List (ListOp α)) :
    ∃ s : HeapList α, runOps ops = some s ∧ s.inv :=
  foldlM_applyOp_inv ops HeapList.hEmpty hEmpty_inv

/-- C5: after every sequence of public mutating operations applied to a
default-constructed list (pushes, pops, clear, and ordered insertion via
insertOrdered with any comparison; copy assignment is clear followed by
pushes of the source data, and the remaining public members do not mutate
the list), the pointer-level state satisfies the structural
invariant checked by assertCorrectSize and assertPrevLinks: some address
sequence forms the forward chain from head_, each node carrying the correct
back-reference to its predecessor, the traversal ends at null having last
visited tail_; the backward traversal from tail_ along prev pointers visits
the same addresses in reverse order, each node carrying the correct next
pointer, and ends at null having last visited head_; the cached size_ equals
the number of nodes in the chain; and head_ is null exactly when size_ is 0,
as is tail_. -/
theorem c5_structural_invariant {α : Type} (ops : List (ListOp α)) :
    ∃ s : HeapList α, runOps ops = some s ∧
      ∃ addrs : List Nat,
        repsSeg s.mem none s.head_ addrs s.tail_ none ∧
        bwdSeg s.mem none s.tail_ addrs.reverse s.head_ none ∧
        s.size_ = (addrs.length : Int) ∧
        (s.head_ = none ↔ s.size_ = 0) ∧
        (s.tail_ = none ↔ s.size_ = 0) := by
  obtain ⟨s, hs, hinv⟩ := runOps_inv ops
  obtain ⟨addrs, hreps, hsize⟩ := hinv
  refine ⟨s, hs, addrs, hreps, repsSeg_bwdSeg s.mem addrs none s.head_ s.tail_ none hreps,
    hsize, ?_, ?_⟩
  · constructor
    · intro hh
      exact inv_head_none_size s ⟨addrs, hreps, hsize⟩ hh
    · intro h0
      have haddrs : addrs = [] := by
        rw [h0] at hsize
        rcases addrs with _ | ⟨a, rest⟩
        · rfl
        · simp at hsize
          omega
      subst haddrs
      exact hreps.2.symm
  · constructor
    · intro ht
      have haddrs : addrs = [] := by
        rcases addrs.eq_nil_or_concat with h1 | ⟨front, t, h2⟩
        · exact h1
        · rw [List.concat_eq_append] at h2
          subst h2
          rw [repsSeg_append_iff] at hreps
          obtain ⟨pm, cm, _, _, nt, _, _, hq, _⟩ := hreps
          rw [ht] at hq
          cases hq
      subst haddrs
      rw [hsize]
      simp
    · intro h0
      have haddrs : addrs = [] := by
        rw [h0] at hsize
        rcases addrs with _ | ⟨a, rest⟩
        · rfl
        · simp at hsize
          omega
      subst haddrs
      exact hreps.1

end HeapLemmas
